import Mathlib

/-!
# Formal model of the fntags reactive state container and keyed-list reconciler

This file gives a shallow embedding, in Lean 4, of the core of
`src/fntags.mjs`: the `fnstate` state container (get/set dispatch,
observer registry, subscription tokens, the selection channel,
dotted-path reads) and the keyed-list reconciliation algorithm
(`doBindChildren` / `reconcile` / `arrangeElements`), together with
theorems checking the natural-language specification against the code.

JavaScript values are modeled by the inductive type `JVal`.  Numbers
are modeled as integers (no floating point is exercised by the spec),
and object identity (`===` on objects) is represented by a numeric id
carried on the `obj` constructor; modeled scenarios keep ids unique so
structural equality of `JVal` coincides with JavaScript strict
equality.  DOM nodes are modeled by `Elem` (an id, the `key` tag that
`arrangeElements` attaches, and whether the node supports
`insertAdjacentElement`, which text nodes do not); a parent's child
list is a `List Elem`, and the DOM mutation primitives (`append`,
`insertBefore`, `replaceWith`, `remove`) implement the standard DOM
"move" semantics: a node is first detached from its current position
before being placed at the new one.
-/

set_option maxHeartbeats 1000000

namespace Fntags

/-- Model of a JavaScript value, as far as the state-container core
inspects values: `undefined`, `null`, booleans, numbers (as integers),
strings, plain objects (an identity id plus named fields) and arrays. -/
inductive JVal where
  | undef : JVal
  | vnull : JVal
  | bool : Bool → JVal
  | num : Int → JVal
  | str : String → JVal
  | obj : Nat → List (String × JVal) → JVal
  | arr : List JVal → JVal
deriving Repr

mutual

/-- Structural (reference-faithful, given unique object ids) decidable
equality for `JVal`. -/
def jvalBEq : JVal → JVal → Bool
  | .undef, .undef => true
  | .vnull, .vnull => true
  | .bool a, .bool b => a == b
  | .num a, .num b => a == b
  | .str a, .str b => a == b
  | .obj i a, .obj j b => i == j && jvalFieldsBEq a b
  | .arr a, .arr b => jvalListBEq a b
  | _, _ => false

/-- Elementwise equality of lists of `JVal`. -/
def jvalListBEq : List JVal → List JVal → Bool
  | [], [] => true
  | a :: as, b :: bs => jvalBEq a b && jvalListBEq as bs
  | _, _ => false

/-- Elementwise equality of object field lists. -/
def jvalFieldsBEq : List (String × JVal) → List (String × JVal) → Bool
  | [], [] => true
  | (k, a) :: as, (l, b) :: bs => k == l && jvalBEq a b && jvalFieldsBEq as bs
  | _, _ => false

end

mutual

/-- `jvalBEq` is sound and complete for propositional equality. -/
theorem jvalBEq_iff : ∀ a b : JVal, jvalBEq a b = true ↔ a = b
  | .undef, b => by cases b <;> simp [jvalBEq]
  | .vnull, b => by cases b <;> simp [jvalBEq]
  | .bool a, b => by cases b <;> simp [jvalBEq]
  | .num a, b => by cases b <;> simp [jvalBEq]
  | .str a, b => by cases b <;> simp [jvalBEq]
  | .obj i a, b => by
      cases b <;> simp [jvalBEq]
      exact fun _ => jvalFieldsBEq_iff a _
  | .arr a, b => by
      cases b <;> simp [jvalBEq]
      exact jvalListBEq_iff a _

/-- `jvalListBEq` is sound and complete for propositional equality. -/
theorem jvalListBEq_iff : ∀ a b : List JVal, jvalListBEq a b = true ↔ a = b
  | [], b => by cases b <;> simp [jvalListBEq]
  | x :: xs, b => by
      cases b with
      | nil => simp [jvalListBEq]
      | cons y ys =>
          simp only [jvalListBEq, Bool.and_eq_true, List.cons.injEq]
          exact and_congr (jvalBEq_iff x y) (jvalListBEq_iff xs ys)

/-- `jvalFieldsBEq` is sound and complete for propositional equality. -/
theorem jvalFieldsBEq_iff : ∀ a b : List (String × JVal), jvalFieldsBEq a b = true ↔ a = b
  | [], b => by cases b <;> simp [jvalFieldsBEq]
  | (k, x) :: xs, b => by
      cases b with
      | nil => simp [jvalFieldsBEq]
      | cons y ys =>
          obtain ⟨l, v⟩ := y
          simp only [jvalFieldsBEq, Bool.and_eq_true, List.cons.injEq, Prod.mk.injEq]
          constructor
          · rintro ⟨⟨hk, hv⟩, hs⟩
            exact ⟨⟨by simpa using hk, (jvalBEq_iff x v).mp hv⟩, (jvalFieldsBEq_iff xs ys).mp hs⟩
          · rintro ⟨⟨hk, hv⟩, hs⟩
            exact ⟨⟨by simpa using hk, (jvalBEq_iff x v).mpr hv⟩, (jvalFieldsBEq_iff xs ys).mpr hs⟩

end

instance : DecidableEq JVal := fun a b =>
  decidable_of_iff (jvalBEq a b = true) (jvalBEq_iff a b)

/-- JavaScript `typeof`, restricted to the cases `JVal` can represent.
Note `typeof null` is `"object"`, as in JavaScript. -/
def typeofStr : JVal → String
  | .undef => "undefined"
  | .vnull => "object"
  | .bool _ => "boolean"
  | .num _ => "number"
  | .str _ => "string"
  | .obj _ _ => "object"
  | .arr _ => "object"

/-- JavaScript truthiness of a value. -/
def truthy : JVal → Bool
  | .undef => false
  | .vnull => false
  | .bool b => b
  | .num n => n != 0
  | .str s => s ≠ ""
  | .obj _ _ => true
  | .arr _ => true

mutual

/-- JavaScript `ToString` as used for object property keys: property
access with a non-string key coerces it to a string, so `undefined`
indexes the property `"undefined"`, numbers their decimal notation,
plain objects `"[object Object]"`, and arrays the comma-join of their
elements. -/
def propKey : JVal → String
  | .undef => "undefined"
  | .vnull => "null"
  | .bool b => cond b "true" "false"
  | .num n => toString n
  | .str s => s
  | .obj _ _ => "[object Object]"
  | .arr xs => propKeyJoin xs

/-- Comma-join used by `Array.prototype.toString`; `null` and
`undefined` elements render as the empty string. -/
def propKeyJoin : List JVal → String
  | [] => ""
  | [.undef] => ""
  | [.vnull] => ""
  | [x] => propKey x
  | .undef :: xs => "," ++ propKeyJoin xs
  | .vnull :: xs => "," ++ propKeyJoin xs
  | x :: xs => propKey x ++ "," ++ propKeyJoin xs

end

instance {ε α : Type} [DecidableEq ε] [DecidableEq α] : DecidableEq (Except ε α) :=
  fun x y =>
    match x, y with
    | .ok a, .ok b =>
        if h : a = b then .isTrue (h ▸ rfl) else .isFalse fun hc => h (Except.ok.inj hc)
    | .error a, .error b =>
        if h : a = b then .isTrue (h ▸ rfl) else .isFalse fun hc => h (Except.error.inj hc)
    | .ok _, .error _ => .isFalse fun hc => Except.noConfusion hc
    | .error _, .ok _ => .isFalse fun hc => Except.noConfusion hc

/-!
## The state container core: `state` get/set dispatch (fntags.mjs lines 160-171)

`fnstate` closes over a mutable context `ctx` holding `currentValue`,
an ordered `observers` array of `{id, fn}` records, and a `nextId`
counter.  Observer callbacks are modeled abstractly by a numeric
callback id; a `set` dispatch is modeled by the ordered list of
invocations `(callbackId, newValue, oldValue)` it performs.
-/

/-- The observable pieces of the `fnstate` closure context used by the
get/set dispatch and subscription bookkeeping. -/
structure SCtx where
  currentValue : JVal
  /-- the `observers` array: `(id, fn)` records in subscription order,
  with the callback `fn` modeled by an opaque callback id. -/
  observers : List (Nat × Nat)
  nextId : Nat
deriving Repr, DecidableEq

/-- How the `state` function was called: with no arguments, with the
state function itself as the sole argument (`arguments[0] === ctx.state`
with `arguments.length === 1`), or with an ordinary value. -/
inductive StateArg where
  | noArg : StateArg
  | selfArg : StateArg
  | value : JVal → StateArg
deriving Repr, DecidableEq

/-- One observer invocation: the callback id and the `(newState, oldState)`
arguments it receives. -/
abbrev ObsEvent := Nat × JVal × JVal

/-- The `state(newState)` function body (fntags.mjs lines 160-171):
zero arguments, or the state function itself as single argument,
returns the current value; otherwise the new value is stored and every
observer is invoked with `(newState, oldState)`; both paths fall
through to return `newState` (the get path returns early with the
current value).  The result is the updated context, the return value,
and the ordered list of observer invocations performed. -/
def stateCall (ctx : SCtx) (arg : StateArg) : SCtx × JVal × List ObsEvent :=
  match arg with
  | .noArg => (ctx, ctx.currentValue, [])
  | .selfArg => (ctx, ctx.currentValue, [])
  | .value newState =>
      let oldState := ctx.currentValue
      ({ ctx with currentValue := newState }, newState,
        ctx.observers.map fun o => (o.2, newState, oldState))

/-!
## Subscription tokens: `doSubscribe` (fntags.mjs lines 319-326)

`doSubscribe` pushes `{id, fn}` and returns a closure that splices the
entry with that id out of the captured `list`, then assigns
`list = null`.  A second invocation of the token therefore calls
`findIndex` on `null` and throws a `TypeError`.  The splice itself uses
`list.findIndex`, which returns `-1` when the id is absent, and
`Array.prototype.splice(-1, 1)` removes the *last* element.
-/

/-- Errors raised by the modeled fragments. -/
inductive JsErr where
  /-- a built-in `TypeError` (e.g. property access on `null`/`undefined`,
  or the `in` operator applied to a non-object) -/
  | typeError : JsErr
  /-- `throw new Error('Invalid path')` -/
  | invalidPath : JsErr
  /-- `throw new Error('Value is not an object')` -/
  | notAnObject : JsErr
  /-- `throw new Error('Duplicate keys in a bound array are not allowed, ...')` -/
  | duplicateKey : JsErr
  /-- `throw new Error('You can only use bindChildren with a state that contains an array. ...')` -/
  | notAnArray : JsErr
  /-- `throw new Error('You must pass an update function when passing a non function element')` -/
  | missingUpdateFunction : JsErr
deriving Repr, DecidableEq

/-- The state captured by an unsubscribe token: the subscription id it
removes, and whether the captured `list` reference is still non-null
(the closure assigns `list = null` after its first run). -/
structure Token where
  id : Nat
  listAlive : Bool
deriving Repr, DecidableEq

/-- `doSubscribe(ctx, ctx.observers, listener)`: allocate `id = ctx.nextId++`,
push `{id, fn: listener}`, and return the unsubscribe token. -/
def doSubscribe (ctx : SCtx) (callbackId : Nat) : SCtx × Token :=
  ({ ctx with
      observers := ctx.observers ++ [(ctx.nextId, callbackId)]
      nextId := ctx.nextId + 1 },
    ⟨ctx.nextId, true⟩)

/-- `Array.prototype.findIndex`: the index of the first match, or `-1`
when none matches. -/
def jsFindIndex (p : α → Bool) : List α → Int
  | [] => -1
  | x :: xs =>
      if p x then 0
      else
        let r := jsFindIndex p xs
        if r = -1 then -1 else r + 1

/-- `Array.prototype.splice(i, 1)`: removes the element at index `i`;
`splice(-1, 1)` removes the *last* element (and on an empty array
removes nothing). -/
def jsSplice1 (l : List α) (i : Int) : List α :=
  if i = -1 then l.dropLast
  else l.take i.toNat ++ l.drop (i.toNat + 1)

/-- Running an unsubscribe token against the observers list: a
`TypeError` once the captured list reference has been nulled by a prior
run, otherwise `list.splice(list.findIndex(l => l.id === id), 1)`
followed by `list = null`. -/
def runUnsubscribe (observers : List (Nat × Nat)) (t : Token) :
    Except JsErr (List (Nat × Nat) × Token) :=
  if t.listAlive then
    .ok (jsSplice1 observers (jsFindIndex (fun o => o.1 == t.id) observers),
      { t with listAlive := false })
  else
    .error .typeError

/-!
## The selection channel: `doSelect` (fntags.mjs lines 378-387)

`ctx.selected` starts out `undefined`; `ctx.selectObservers` is a plain
object mapping keys (coerced to property strings) to arrays of
callbacks.  `doSelect` records the new key, then fires the observers of
the previously selected key (if any) followed by the observers of the
newly selected key (if any).
-/

/-- Look up a string key in an insertion-ordered association list
(model of plain-object property lookup). -/
def alookup (l : List (String × α)) (k : String) : Option α :=
  match l with
  | [] => none
  | p :: rest => if p.1 = k then some p.2 else alookup rest k

/-- Remove a string key from an association list (model of `delete obj[k]`;
object keys are unique, so filtering is exact). -/
def aerase (l : List (String × α)) (k : String) : List (String × α) :=
  l.filter fun p => p.1 ≠ k

/-- Insert-or-overwrite a string key (model of `obj[k] = v`). -/
def aset (l : List (String × α)) (k : String) (v : α) : List (String × α) :=
  if (alookup l k).isSome then
    l.map fun p => if p.1 = k then (k, v) else p
  else
    l ++ [(k, v)]

/-- The selection state of a container: the currently selected key
(initially `undefined`) and the per-key select observer lists, with
callbacks modeled by opaque ids. -/
structure SelCtx where
  selected : JVal
  selectObservers : List (String × List Nat)
deriving Repr, DecidableEq

/-- `doSelect(ctx, key)` (fntags.mjs lines 378-387): remember the old
key, store the new one, fire `selectObservers[oldKey]` if defined, then
`selectObservers[ctx.selected]` if defined.  Returns the updated
context and the ordered list of callback invocations. -/
def doSelect (ctx : SelCtx) (key : JVal) : SelCtx × List Nat :=
  let currentSelected := ctx.selected
  let ctx' : SelCtx := { ctx with selected := key }
  let fireOld :=
    match alookup ctx'.selectObservers (propKey currentSelected) with
    | some obs => obs
    | none => []
  let fireNew :=
    match alookup ctx'.selectObservers (propKey ctx'.selected) with
    | some obs => obs
    | none => []
  (ctx', fireOld ++ fireNew)

/-!
## Dotted-path read: `getPath` (fntags.mjs lines 256-275)

`getPath` throws `Invalid path` when `typeof path !== 'string'` (note:
the empty string *is* a string and passes this check), throws
`Value is not an object` when `typeof ctx.currentValue !== 'object'`
(note: `typeof null === 'object'` passes), and then reduces over
`path.split('.')` with `part in curr ? curr[part] : undefined`.  The
`in` operator throws a `TypeError` whenever its right operand is not an
object — in particular when an earlier segment already produced
`undefined` or a primitive.
-/

/-- JavaScript `part in curr` followed by `curr[part]`: defined for
objects (field lookup) and arrays (index or `length`); for any other
operand the `in` operator throws a `TypeError`. -/
def jsInStep (curr : JVal) (part : String) : Except JsErr JVal :=
  match curr with
  | .obj _ fields =>
      match alookup fields part with
      | some v => .ok v
      | none => .ok .undef
  | .arr elems =>
      if part = "length" then .ok (.num elems.length)
      else
        match part.toNat? with
        | some i => if h : i < elems.length then .ok (elems.get ⟨i, h⟩) else .ok .undef
        | none => .ok .undef
  | _ => .error .typeError

/-- `path.split('.')`, character-wise (the separator is the single
character `.`): splitting the empty string yields one empty segment,
as in JavaScript. -/
def splitDotAux : List Char → List Char → List String
  | [], acc => [String.mk acc.reverse]
  | c :: rest, acc =>
      if c = '.' then String.mk acc.reverse :: splitDotAux rest []
      else splitDotAux rest (c :: acc)

/-- `path.split('.')` on a string. -/
def splitDot (s : String) : List String :=
  splitDotAux s.data []

/-- `ctx.state.getPath(path)` (fntags.mjs lines 256-275). -/
def getPath (path : JVal) (currentValue : JVal) : Except JsErr JVal :=
  if typeofStr path ≠ "string" then .error .invalidPath
  else if typeofStr currentValue ≠ "object" then .error .notAnObject
  else
    match path with
    | .str s => (splitDot s).foldlM jsInStep currentValue
    | _ => .error .invalidPath

/-!
## The keyed-list reconciler: `keyMapper` and `arrangeElements`
(fntags.mjs lines 502-600)

A parent node's child list is a `List Elem`; `boundElementByKey` is an
insertion-ordered association list keyed by the property-string
coercion of an item's key; `ctx.selectObservers` likewise.  The three
placement primitives below implement the DOM move semantics: `append`,
`insertBefore` and `replaceWith` first detach the node being placed if
it is already in the parent.  The source uses
`insertAdjacentElement('beforeBegin', ...)` when available and falls
back to `parent.insertBefore(...)`; both have the same effect on the
child list and are modeled as one `insertBefore` operation.
-/

/-- A rendered unit: its node identity, the `key` tag attached by the
reconciler (`current.key = key`, compared with `!==`, i.e. raw value
equality), and whether the node supports `insertAdjacentElement`
(text nodes do not). -/
structure Elem where
  id : Nat
  key : JVal
  hasIAE : Bool
deriving Repr, DecidableEq

/-- Structural operations issued against the parent node. -/
inductive DomOp where
  | append (id : Nat)
  | insertBefore (id refId : Nat)
  | replaceWith (oldId newId : Nat)
  | remove (id : Nat)
  /-- `parent.textContent = ''`, recording the ids of the children it
  removed (none, when the parent was already empty) -/
  | clearAll (removed : List Nat)
deriving Repr, DecidableEq

/-- How many child nodes an operation list appends, inserts, replaces
or removes; a `clearAll` counts the children it actually removed. -/
def structuralCount : List DomOp → Nat
  | [] => 0
  | .append _ :: rest => 1 + structuralCount rest
  | .insertBefore _ _ :: rest => 1 + structuralCount rest
  | .replaceWith _ _ :: rest => 1 + structuralCount rest
  | .remove _ :: rest => 1 + structuralCount rest
  | .clearAll l :: rest => l.length + structuralCount rest

/-- Detach the node with the given id from a child list (no-op when
absent). -/
def domDetach (nid : Nat) (l : List Elem) : List Elem :=
  l.eraseP fun x => x.id == nid

/-- `parent.append(e)`: detach `e` if already present, then place it
last. -/
def domAppend (e : Elem) (l : List Elem) : List Elem :=
  domDetach e.id l ++ [e]

/-- Insert `e` immediately before the first node with `ref`'s id;
nodes are compared by identity.  (Under the reconciler's invariants
`ref` is always present; the fallthrough appends.) -/
def insertBeforeList (e ref : Elem) : List Elem → List Elem
  | [] => [e]
  | x :: xs => if x.id = ref.id then e :: x :: xs else x :: insertBeforeList e ref xs

/-- `prev.insertAdjacentElement('beforeBegin', e)` /
`parent.insertBefore(e, prev)`: detach `e` if already present, then
insert it immediately before `ref`. -/
def domInsertBefore (e ref : Elem) (l : List Elem) : List Elem :=
  insertBeforeList e ref (domDetach e.id l)

/-- `old.replaceWith(e)`: detach `e` if it is elsewhere in the parent,
then swap it in at `old`'s position (replacing a node with itself is a
no-op). -/
def domReplace (oldE newE : Elem) (l : List Elem) : List Elem :=
  if oldE.id = newE.id then l
  else (domDetach newE.id l).map fun x => if x.id = oldE.id then newE else x

/-- `e.previousSibling` within a child list: the node immediately
before the one with `e`'s id (`none` when `e` is first or absent). -/
def prevSibling (e : Elem) : List Elem → Option Elem
  | [] => none
  | [_] => none
  | x :: y :: rest =>
      if x.id = e.id then none
      else if y.id = e.id then some x else prevSibling e (y :: rest)

/-- `keyMapper(mapKey, value)` (fntags.mjs lines 502-510): a
non-object value is its own key; otherwise `0` when no key function is
set, else `mapKey(value)` — called with the value only. -/
def keyMapper (mapKey : Option (JVal → JVal)) (value : JVal) : JVal :=
  if typeofStr value ≠ "object" then value
  else
    match mapKey with
    | none => .num 0
    | some f => f value

/-- The per-binding and per-container state `arrangeElements` reads and
writes: the parent's child list, `bindContext.boundElementByKey`,
`ctx.selectObservers`, and the id supply for freshly rendered units.
(`boundElementByKey` and `selectObservers` are plain objects; property
enumeration order for the stray-cleanup loop is modeled as insertion
order — the resulting state does not depend on it.) -/
structure BindState where
  children : List Elem
  bound : List (String × Elem)
  selectObservers : List (String × List Nat)
  nextElemId : Nat
deriving Repr, DecidableEq

/-- Working state threaded through one reconciliation pass, extending
`BindState` with the operation log and the property-keys of the items
that were freshly rendered (`renderNode(evaluateElement(...))`). -/
structure PassSt where
  children : List Elem
  bound : List (String × Elem)
  selectObservers : List (String × List Nat)
  nextElemId : Nat
  ops : List DomOp
  rendered : List String
deriving Repr, DecidableEq

/-- The key-computation loop of `arrangeElements` (lines 520-534):
each item (wrapped in its own `fnstate`, which preserves its value) is
mapped through `keyMapper`; `keys[key] = i` stores the item's index
under the property-string of the key, and a second item hitting an
already-set property (`if (keys[key])` — the stored `for..in` index
strings `"0"`, `"1"`, ... are all truthy) aborts with the duplicate-key
error.  On success returns the `keys` map and the raw `keysArr`. -/
def keysLoop (mapKey : Option (JVal → JVal)) :
    List JVal → Nat → List (String × Nat) → List JVal →
    Except Unit (List (String × Nat) × List JVal)
  | [], _, keys, keysArr => .ok (keys, keysArr)
  | v :: rest, i, keys, keysArr =>
      let key := keyMapper mapKey v
      if (alookup keys (propKey key)).isSome then .error ()
      else keysLoop mapKey rest (i + 1) (keys ++ [(propKey key, i)]) (keysArr ++ [key])

/-- One iteration of the right-to-left placement loop of
`arrangeElements` (lines 539-588) for the item with raw key `key`:
fetch the existing unit for the key or render a fresh one, then place
it relative to `prev` (the unit placed in the previous iteration).
Returns the updated state and the unit, which becomes the next `prev`. -/
def placeStep (keys : List (String × Nat)) (prev : Option Elem) (key : JVal)
    (st : PassSt) : PassSt × Elem :=
  let found := alookup st.bound (propKey key)
  let st1 :=
    match found with
    | some _ => st
    | none =>
        let e : Elem := ⟨st.nextElemId, key, true⟩
        { st with
            bound := aset st.bound (propKey key) e
            nextElemId := st.nextElemId + 1
            rendered := st.rendered ++ [propKey key] }
  let current : Elem :=
    match found with
    | some e => e
    | none => ⟨st.nextElemId, key, true⟩
  let isNew := found.isNone
  match prev with
  | none =>
      -- if (!parent.lastChild || parent.lastChild.key !== current.key) parent.append(current)
      match st1.children.getLast? with
      | none =>
          ({ st1 with
              children := domAppend current st1.children
              ops := st1.ops ++ [.append current.id] }, current)
      | some last =>
          if last.key ≠ current.key then
            ({ st1 with
                children := domAppend current st1.children
                ops := st1.ops ++ [.append current.id] }, current)
          else (st1, current)
  | some prevE =>
      match prevSibling prevE st1.children with
      | none =>
          -- prev has no left sibling: insert current immediately before it
          ({ st1 with
              children := domInsertBefore current prevE st1.children
              ops := st1.ops ++ [.insertBefore current.id prevE.id] }, current)
      | some sib =>
          if sib.key = current.key then (st1, current)
          else if (alookup keys (propKey sib.key)).isNone then
            -- the sibling's key is gone from the collection: stale;
            -- drop it from the bound map, purge its select observers
            -- (only when current has insertAdjacentElement), replace in place
            let st2 := { st1 with bound := aerase st1.bound (propKey sib.key) }
            let st3 :=
              if (alookup st2.selectObservers (propKey sib.key)).isSome && current.hasIAE then
                { st2 with selectObservers := aerase st2.selectObservers (propKey sib.key) }
              else st2
            ({ st3 with
                children := domReplace sib current st3.children
                ops := st3.ops ++ [.replaceWith sib.id current.id] }, current)
          else if isNew then
            ({ st1 with
                children := domInsertBefore current prevE st1.children
                ops := st1.ops ++ [.insertBefore current.id prevE.id] }, current)
          else
            -- existing unit out of position: replace the occupying sibling (a move)
            ({ st1 with
                children := domReplace sib current st1.children
                ops := st1.ops ++ [.replaceWith sib.id current.id] }, current)

/-- The placement loop, iterating the raw keys from last item to first
(the argument list is `keysArr.reverse`). -/
def placeLoop (keys : List (String × Nat)) :
    List JVal → Option Elem → PassSt → PassSt
  | [], _, st => st
  | key :: rest, prev, st =>
      let (st', current) := placeStep keys prev key st
      placeLoop keys rest (some current) st'

/-- The stray-cleanup loop (lines 591-599): every key still in
`boundElementByKey` but absent from `keys` is removed from the parent,
dropped from the map, and its select observers purged.  The first
argument is the snapshot of the bound entries being enumerated. -/
def straysLoop (keys : List (String × Nat)) :
    List (String × Elem) → PassSt → PassSt
  | [], st => st
  | (pk, e) :: rest, st =>
      if (alookup keys pk).isSome then straysLoop keys rest st
      else
        let st1 := { st with
          children := domDetach e.id st.children
          bound := aerase st.bound pk
          ops := st.ops ++ [.remove e.id] }
        let st2 :=
          if (alookup st1.selectObservers pk).isSome then
            { st1 with selectObservers := aerase st1.selectObservers pk }
          else st1
        straysLoop keys rest st2

/-- Result of one `arrangeElements` call: the updated state with the
operations performed and the keys freshly rendered, or the
duplicate-key abort (the caller decides on rollback, see `boundSet`). -/
inductive ArrangeOut where
  | ok (st : BindState) (ops : List DomOp) (rendered : List String)
  | dup
deriving Repr, DecidableEq

/-- `arrangeElements(ctx, bindContext, oldState)` (lines 512-600): the
empty collection clears the parent, the bound map and all select
observers; otherwise keys are computed (aborting on a duplicate), the
placement pass runs right-to-left, and strays are cleaned up. -/
def arrangeElements (mapKey : Option (JVal → JVal)) (items : List JVal)
    (st : BindState) : ArrangeOut :=
  if items.isEmpty then
    .ok ⟨[], [], [], st.nextElemId⟩ [.clearAll (st.children.map (·.id))] []
  else
    match keysLoop mapKey items 0 [] [] with
    | .error _ => .dup
    | .ok (keys, keysArr) =>
        let pst : PassSt := ⟨st.children, st.bound, st.selectObservers, st.nextElemId, [], []⟩
        let pst1 := placeLoop keys keysArr.reverse none pst
        let pst2 := straysLoop keys pst1.bound pst1
        .ok ⟨pst2.children, pst2.bound, pst2.selectObservers, pst2.nextElemId⟩
          pst2.ops pst2.rendered

/-!
## The bound-container pipeline: `set()` on a state with a
`bindChildren` binding (fntags.mjs lines 389-426 and 493-500)

`doBindChildren` subscribes an observer that, on every `set()`, either
reconciles (array value) or logs a warning and re-sets the value
wrapped in a one-element array (non-array value) — the wrap runs inside
a `new Promise(executor)` whose executor is executed *synchronously* by
the JavaScript `Promise` constructor.  A duplicate key during
reconciliation first rolls the container back via `ctx.state(oldState)`
(when `oldState` is truthy), which re-dispatches the observer, and then
throws.  The model covers a container whose observer list consists of
the single `bindChildren` subscription and one bind context; recursion
through re-entrant `set()` calls is bounded by explicit fuel (the
theorems below supply enough fuel that the bound is never hit). -/

/-- Pipeline errors: a thrown JavaScript error, or fuel exhaustion of
the model (never reached at the call depths proved below). -/
inductive PipeErr where
  | js : JsErr → PipeErr
  | outOfFuel : PipeErr
deriving Repr, DecidableEq

/-- Non-fatal logged conditions. -/
inductive Warn where
  /-- `'Using value index as key, may not work correctly when moving items...'` -/
  | indexKeyFallback : Warn
  /-- `'A state used with bindChildren was updated to a non array value. ...'` -/
  | nonArrayCoercion : Warn
deriving Repr, DecidableEq

/-- A bound container: its current value, its key function, and the
state of its single bind context. -/
structure BCtx where
  currentValue : JVal
  mapKey : Option (JVal → JVal)
  bind : BindState

/-- Result of a `set()` on a bound container: the final container
state, the structural operations and renders performed (across nested
dispatch rounds, in execution order), warnings logged, and the error
that propagated to the caller, if any. -/
structure PipeOut where
  ctx : BCtx
  ops : List DomOp
  rendered : List String
  warns : List Warn
  err : Option PipeErr

/-- `ctx.state(v)` on a bound container: store `v`, then run the
`bindChildren` observer.  A non-array value logs a warning and
immediately (the `Promise` executor is synchronous) re-enters
`ctx.state([ctx.currentValue])`.  An array value reconciles; a
duplicate key rolls back via `ctx.state(oldState)` when `oldState` is
truthy — re-dispatching the observer — and then throws; an exception
from the rollback itself would propagate instead. -/
def boundSet : Nat → BCtx → JVal → PipeOut
  | 0, ctx, _ => ⟨ctx, [], [], [], some .outOfFuel⟩
  | fuel + 1, ctx, v =>
      let oldState := ctx.currentValue
      let ctx1 : BCtx := { ctx with currentValue := v }
      match v with
      | .arr items =>
          match arrangeElements ctx1.mapKey items ctx1.bind with
          | .ok st' ops rendered =>
              ⟨{ ctx1 with bind := st' }, ops, rendered, [], none⟩
          | .dup =>
              if truthy oldState then
                let rb := boundSet fuel ctx1 oldState
                match rb.err with
                | some _ => rb
                | none => { rb with err := some (.js .duplicateKey) }
              else
                ⟨ctx1, [], [], [], some (.js .duplicateKey)⟩
      | _ =>
          let inner := boundSet fuel ctx1 (.arr [ctx1.currentValue])
          { inner with warns := .nonArrayCoercion :: inner.warns }

/-- `doBindChildren(ctx, parent, element, update)` (lines 389-426):
fails when neither `element` nor `update` is a function; falls back to
`(o, i) => i` as the key function when none is set (logging a warning)
— but `keyMapper` invokes it with the value only, so `i` is always
`undefined`; requires the current value to be an array; wraps each item
in its own `fnstate` (value-preserving); subscribes the reconcile
observer; and runs the initial `reconcile(ctx)` — whose `oldState` is
`undefined`, so a duplicate key on the initial pass aborts without any
rollback. -/
def bindChildrenInit (elementIsFn updateIsFn : Bool) (ctx : BCtx) : PipeOut :=
  if !elementIsFn && !updateIsFn then
    ⟨ctx, [], [], [], some (.js .missingUpdateFunction)⟩
  else
    let (warns, ctx1) :=
      match ctx.mapKey with
      | some _ => (([] : List Warn), ctx)
      | none => ([Warn.indexKeyFallback], { ctx with mapKey := some fun _ => JVal.undef })
    match ctx1.currentValue with
    | .arr items =>
        match arrangeElements ctx1.mapKey items ctx1.bind with
        | .ok st' ops rendered => ⟨{ ctx1 with bind := st' }, ops, rendered, warns, none⟩
        | .dup => ⟨ctx1, [], [], warns, some (.js .duplicateKey)⟩
    | _ => ⟨ctx1, [], [], warns, some (.js .notAnArray)⟩

/-!
## Derived notions used by the specification theorems
-/

/-- The raw keys `keyMapper` computes for a collection. -/
def rawKeysOf (mapKey : Option (JVal → JVal)) (items : List JVal) : List JVal :=
  items.map (keyMapper mapKey)

/-- The property-string keys of a collection (what the `keys` and
`boundElementByKey` objects are indexed by). -/
def pksOf (mapKey : Option (JVal → JVal)) (items : List JVal) : List String :=
  (rawKeysOf mapKey items).map propKey

/-- The select-observer list registered for a property key
(`ctx.selectObservers[k]`, or no observers when the key is absent). -/
def obsFor (ctx : SelCtx) (pk : String) : List Nat :=
  (alookup ctx.selectObservers pk).getD []

/-- Well-formedness of a bind state as the reconciler maintains it
between passes: every child is found in the bound map under its own
property key, every bound entry points at a child carrying the entry's
key, the bound map's keys are pairwise distinct, children have pairwise
distinct property keys and ids, and all ids are below the id supply. -/
def WFB (st : BindState) : Prop :=
  (∀ e ∈ st.children, alookup st.bound (propKey e.key) = some e) ∧
  (∀ p ∈ st.bound, p.2 ∈ st.children ∧ propKey p.2.key = p.1) ∧
  (st.bound.map Prod.fst).Nodup ∧
  (st.children.map fun e => propKey e.key).Nodup ∧
  (st.children.map Elem.id).Nodup ∧
  (∀ e ∈ st.children, e.id < st.nextElemId)

/-- A bind state is consistent with a collection value when it is
well-formed and its child list realizes exactly the collection's
property keys in collection order — the state a completed
reconciliation pass leaves behind (a reused unit keeps its original raw
key tag, whose property string matches the item's; for the empty
collection the pass also clears the bound map and the select
observers). -/
def Consistent (mapKey : Option (JVal → JVal)) (items : List JVal) (st : BindState) : Prop :=
  WFB st ∧
  (st.children.map fun e => propKey e.key) = pksOf mapKey items ∧
  (items = [] → st.bound = [] ∧ st.selectObservers = [])

end Fntags

namespace Fntags

/-!
## Association-list and sibling lemmas
-/

/-- Presence in an association list is membership of its key column. -/
theorem alookup_isSome_iff (l : List (String × α)) (k : String) :
    (alookup l k).isSome ↔ k ∈ l.map Prod.fst := by
  induction l with
  | nil => simp [alookup]
  | cons p rest ih =>
      by_cases h : p.1 = k
      · simp [alookup, h]
      · simp [alookup, h, ih, Ne.symm h]

/-- Lookup across an append searches the left list first. -/
theorem alookup_append (l1 l2 : List (String × α)) (k : String) :
    alookup (l1 ++ l2) k =
      match alookup l1 k with
      | some v => some v
      | none => alookup l2 k := by
  induction l1 with
  | nil => simp [alookup]
  | cons p rest ih =>
      by_cases h : p.1 = k
      · simp [alookup, h]
      · simp [alookup, h, ih]

/-- The node immediately left of `b` in `l ++ a :: b :: r` is `a`,
provided ids are unambiguous. -/
theorem prevSibling_append (b a : Elem) :
    ∀ (l r : List Elem), ((l ++ a :: b :: r).map Elem.id).Nodup →
      prevSibling b (l ++ a :: b :: r) = some a := by
  intro l
  induction l with
  | nil =>
      intro r h
      rw [List.nil_append, List.map_cons, List.nodup_cons] at h
      have hab : a.id ≠ b.id := by
        intro he
        exact h.1 (by rw [List.map_cons, he]; exact List.mem_cons_self _ _)
      rw [List.nil_append, prevSibling, if_neg hab, if_pos rfl]
  | cons c l ih =>
      intro r h
      rw [List.cons_append, List.map_cons, List.nodup_cons] at h
      obtain ⟨hc, h'⟩ := h
      have hcb : c.id ≠ b.id := by
        intro he
        exact hc (by rw [he]; simp)
      have hrec := ih r h'
      cases l with
      | nil =>
          rw [List.nil_append] at hrec
          have h'' := h'
          rw [List.nil_append, List.map_cons, List.nodup_cons] at h''
          have hab : a.id ≠ b.id := by
            intro he
            exact h''.1 (by rw [List.map_cons, he]; exact List.mem_cons_self _ _)
          rw [List.cons_append, List.nil_append, prevSibling, if_neg hcb, if_neg hab]
          exact hrec
      | cons d l₂ =>
          rw [List.cons_append] at hrec
          have h'' := h'
          rw [List.cons_append, List.map_cons, List.nodup_cons] at h''
          have hdb : d.id ≠ b.id := by
            intro he
            exact h''.1 (by rw [he]; simp)
          rw [List.cons_append, List.cons_append, prevSibling, if_neg hcb, if_neg hdb]
          exact hrec

/-- A node that is the first child has no previous sibling. -/
theorem prevSibling_head (b : Elem) (r : List Elem) :
    prevSibling b (b :: r) = none := by
  cases r <;> simp [prevSibling]

/-!
## The key-computation loop
-/

/-- With pairwise-distinct property keys (none already present in the
accumulator), the key loop succeeds, producing the raw key list and a
map whose domain is the accumulator's keys plus the items' keys. -/
theorem keysLoop_ok (mapKey : Option (JVal → JVal)) :
    ∀ (items : List JVal) (i : Nat) (acc : List (String × Nat)) (accArr : List JVal),
      (pksOf mapKey items).Nodup →
      (∀ pk ∈ pksOf mapKey items, alookup acc pk = none) →
      ∃ keys, keysLoop mapKey items i acc accArr =
          .ok (keys, accArr ++ rawKeysOf mapKey items) ∧
        ∀ pk, (alookup keys pk).isSome ↔
          ((alookup acc pk).isSome ∨ pk ∈ pksOf mapKey items) := by
  intro items
  induction items with
  | nil =>
      intro i acc accArr _ _
      exact ⟨acc, by simp [keysLoop, rawKeysOf], by simp [pksOf, rawKeysOf]⟩
  | cons v rest ih =>
      intro i acc accArr hnd hacc
      have hpks : pksOf mapKey (v :: rest) =
          propKey (keyMapper mapKey v) :: pksOf mapKey rest := by
        simp [pksOf, rawKeysOf]
      rw [hpks] at hnd hacc
      have hnd' := List.nodup_cons.mp hnd
      have hacc0 : alookup acc (propKey (keyMapper mapKey v)) = none :=
        hacc _ (by simp)
      have hacc' : ∀ pk ∈ pksOf mapKey rest,
          alookup (acc ++ [(propKey (keyMapper mapKey v), i)]) pk = none := by
        intro pk hpk
        rw [alookup_append, hacc pk (by simp [hpk])]
        have : propKey (keyMapper mapKey v) ≠ pk := by
          intro he
          exact hnd'.1 (he ▸ hpk)
        simp [alookup, this]
      obtain ⟨keys, heq, hdom⟩ :=
        ih (i + 1) (acc ++ [(propKey (keyMapper mapKey v), i)]) (accArr ++ [keyMapper mapKey v])
          hnd'.2 hacc'
      refine ⟨keys, ?_, ?_⟩
      · rw [keysLoop, if_neg (by simp [hacc0]), heq]
        simp [rawKeysOf]
      · intro pk
        rw [hdom pk]
        have hsingle : (alookup (acc ++ [(propKey (keyMapper mapKey v), i)]) pk).isSome ↔
            ((alookup acc pk).isSome ∨ pk = propKey (keyMapper mapKey v)) := by
          rw [alookup_append]
          cases halu : alookup acc pk with
          | some w => simp
          | none =>
              by_cases hpk : propKey (keyMapper mapKey v) = pk
              · simp [alookup, hpk, eq_comm]
              · have : pk ≠ propKey (keyMapper mapKey v) := fun he => hpk he.symm
                simp [alookup, hpk, this]
        rw [hsingle, hpks]
        constructor
        · rintro ((h | h) | h)
          · exact Or.inl h
          · exact Or.inr (by rw [h]; exact List.mem_cons_self _ _)
          · exact Or.inr (List.mem_cons_of_mem _ h)
        · rintro (h | h)
          · exact Or.inl (Or.inl h)
          · rcases List.mem_cons.mp h with rfl | h'
            · exact Or.inl (Or.inr rfl)
            · exact Or.inr h'

/-- A duplicate among the property keys (or a collision with the
accumulator) makes the key loop abort with the duplicate-key error. -/
theorem keysLoop_error (mapKey : Option (JVal → JVal)) :
    ∀ (items : List JVal) (i : Nat) (acc : List (String × Nat)) (accArr : List JVal),
      (¬ (pksOf mapKey items).Nodup ∨
        ∃ pk ∈ pksOf mapKey items, (alookup acc pk).isSome) →
      keysLoop mapKey items i acc accArr = .error () := by
  intro items
  induction items with
  | nil =>
      intro i acc accArr h
      rcases h with h | ⟨pk, hpk, _⟩
      · exact absurd (show (pksOf mapKey ([] : List JVal)).Nodup by
          simp [pksOf, rawKeysOf]) h
      · simp [pksOf, rawKeysOf] at hpk
  | cons v rest ih =>
      intro i acc accArr h
      have hpks : pksOf mapKey (v :: rest) =
          propKey (keyMapper mapKey v) :: pksOf mapKey rest := by
        simp [pksOf, rawKeysOf]
      rw [hpks] at h
      by_cases hacc0 : (alookup acc (propKey (keyMapper mapKey v))).isSome
      · rw [keysLoop, if_pos hacc0]
      · rw [keysLoop, if_neg hacc0]
        apply ih
        rcases h with h | ⟨pk, hpk, hsome⟩
        · rw [List.nodup_cons] at h
          push_neg at h
          by_cases hmem : propKey (keyMapper mapKey v) ∈ pksOf mapKey rest
          · refine Or.inr ⟨_, hmem, ?_⟩
            rw [alookup_append]
            cases halu : alookup acc (propKey (keyMapper mapKey v)) <;> simp [alookup]
          · exact Or.inl (h hmem)
        · rcases List.mem_cons.mp hpk with rfl | hpk'
          · exact absurd hsome hacc0
          · refine Or.inr ⟨pk, hpk', ?_⟩
            rw [alookup_append]
            cases halu : alookup acc pk
            · rw [halu] at hsome; cases hsome
            · simp [halu]

/-!
## A pass over an already-consistent state is a no-op (Lemma A)
-/

/-- When the child at the left of `prevE` already carries the property
key being placed, `placeStep` changes nothing: the placement loop over
keys that pointwise match a consistent suffix leaves the state
untouched. -/
theorem placeLoop_noop (keys : List (String × Nat)) (st : PassSt) :
    ∀ (revKs : List JVal) (revPre : List Elem) (prevE : Elem) (post : List Elem),
      revKs.map propKey = revPre.map (fun e => propKey e.key) →
      st.children = revPre.reverse ++ prevE :: post →
      (∀ e ∈ st.children, alookup st.bound (propKey e.key) = some e) →
      (st.children.map Elem.id).Nodup →
      placeLoop keys revKs (some prevE) st = st := by
  intro revKs
  induction revKs with
  | nil => intro revPre prevE post _ _ _ _; rfl
  | cons k ks ih =>
      intro revPre prevE post hpair hch hbound hid
      cases revPre with
      | nil => cases hpair
      | cons e revPre' =>
          rw [List.map_cons, List.map_cons] at hpair
          have hpk : propKey k = propKey e.key := (List.cons.inj hpair).1
          have hpair' : ks.map propKey = revPre'.map fun e => propKey e.key :=
            (List.cons.inj hpair).2
          have hch' : st.children = revPre'.reverse ++ e :: prevE :: post := by
            rw [hch, List.reverse_cons, List.append_assoc]
            rfl
          have he : e ∈ st.children := by
            rw [hch']
            exact List.mem_append_right _ (List.mem_cons_self _ _)
          have hfound : alookup st.bound (propKey k) = some e := by
            rw [hpk]
            exact hbound e he
          have hprev : prevSibling prevE st.children = some e := by
            rw [hch']
            exact prevSibling_append prevE e revPre'.reverse post (by rw [← hch']; exact hid)
          have hps : placeStep keys (some prevE) k st = (st, e) := by
            simp [placeStep, hfound, hprev]
          simp only [placeLoop, hps]
          exact ih revPre' e (prevE :: post) hpair' hch' hbound hid

/-- When every bound entry's key is still among the collection's keys,
the stray-cleanup loop removes nothing. -/
theorem straysLoop_noop (keys : List (String × Nat)) :
    ∀ (entries : List (String × Elem)) (st : PassSt),
      (∀ p ∈ entries, (alookup keys p.1).isSome) →
      straysLoop keys entries st = st := by
  intro entries
  induction entries with
  | nil => intro st _; rfl
  | cons p rest ih =>
      intro st h
      obtain ⟨pk, e⟩ := p
      rw [straysLoop, if_pos (h _ (List.mem_cons_self _ _))]
      exact ih st fun q hq => h q (List.mem_cons_of_mem _ hq)

/-- Lemma A: running `arrangeElements` on a state already consistent
with the collection performs zero structural operations, renders
nothing, and returns the state unchanged. -/
theorem arrange_consistent_noop (mapKey : Option (JVal → JVal)) (items : List JVal)
    (st : BindState) (hc : Consistent mapKey items st) :
    ∃ ops, arrangeElements mapKey items st = .ok st ops [] ∧ structuralCount ops = 0 := by
  obtain ⟨⟨hlook, hentries, _, hpknd, hidnd, _⟩, hkeys, hempty⟩ := hc
  by_cases hitems : items = []
  · subst hitems
    obtain ⟨hbd, hso⟩ := hempty rfl
    have hch : st.children = [] := by
      have := hkeys
      rw [show pksOf mapKey ([] : List JVal) = [] from rfl] at this
      exact List.map_eq_nil_iff.mp this
    cases st with
    | mk c b s n =>
        simp only at hch hbd hso
        subst hch
        subst hbd
        subst hso
        exact ⟨[.clearAll []], rfl, by simp [structuralCount]⟩
  · -- the collection is nonempty: keys are computed, placement and
    -- stray cleanup are no-ops
    have hpks : pksOf mapKey items = st.children.map fun e => propKey e.key := hkeys.symm
    have hnd : (pksOf mapKey items).Nodup := by rw [hpks]; exact hpknd
    obtain ⟨keys, hkeq, hdom⟩ := keysLoop_ok mapKey items 0 [] []
      hnd (by intro pk _; rfl)
    rw [List.nil_append] at hkeq
    have hchne : st.children ≠ [] := by
      intro hch
      apply hitems
      have : pksOf mapKey items = [] := by rw [← hkeys, hch]; rfl
      have hlen : items.length = 0 := by
        have := congrArg List.length this
        simpa [pksOf, rawKeysOf] using this
      exact List.length_eq_zero.mp hlen
    obtain ⟨last, init, hinit⟩ :
        ∃ last init, st.children = init ++ [last] := by
      cases hrev : st.children.reverse with
      | nil => exact absurd (by simpa using congrArg List.reverse hrev) hchne
      | cons x xs =>
          refine ⟨x, xs.reverse, ?_⟩
          have := congrArg List.reverse hrev
          simpa using this
    -- the raw key list splits in parallel with the children
    have hrawne : rawKeysOf mapKey items ≠ [] := by
      intro hraw
      apply hitems
      have := congrArg List.length hraw
      simpa [rawKeysOf, List.length_eq_zero] using this
    obtain ⟨lastK, initK, hinitK⟩ :
        ∃ lastK initK, rawKeysOf mapKey items = initK ++ [lastK] := by
      cases hrev : (rawKeysOf mapKey items).reverse with
      | nil => exact absurd (by simpa using congrArg List.reverse hrev) hrawne
      | cons x xs =>
          refine ⟨x, xs.reverse, ?_⟩
          have := congrArg List.reverse hrev
          simpa using this
    have hsplit : initK.map propKey ++ [propKey lastK] =
        (init.map fun e => propKey e.key) ++ [propKey last.key] := by
      have h1 : (rawKeysOf mapKey items).map propKey =
          st.children.map fun e => propKey e.key := by
        simpa [pksOf] using hpks
      rw [hinitK, hinit] at h1
      simpa using h1
    have hlastK : propKey lastK = propKey last.key :=
      by simpa using (List.append_inj' hsplit rfl).2
    have hinitKmap : initK.map propKey = init.map fun e => propKey e.key :=
      (List.append_inj' hsplit rfl).1
    have hrawrev : (rawKeysOf mapKey items).reverse = lastK :: initK.reverse := by
      rw [hinitK]
      simp
    -- first placement step: the last child already carries the last key
    have hstep1 : placeStep keys none lastK
        ⟨st.children, st.bound, st.selectObservers, st.nextElemId, [], []⟩ =
        (⟨st.children, st.bound, st.selectObservers, st.nextElemId, [], []⟩, last) := by
      have hfoundl : alookup st.bound (propKey lastK) = some last := by
        rw [hlastK]
        exact hlook last (by rw [hinit]; simp)
      have hlast : st.children.getLast? = some last := by
        rw [hinit]
        exact List.getLast?_concat _
      simp [placeStep, hfoundl, hlast]
    have hplace : placeLoop keys (rawKeysOf mapKey items).reverse none
        ⟨st.children, st.bound, st.selectObservers, st.nextElemId, [], []⟩ =
        ⟨st.children, st.bound, st.selectObservers, st.nextElemId, [], []⟩ := by
      rw [hrawrev, placeLoop, hstep1]
      refine placeLoop_noop keys _ initK.reverse init.reverse last [] ?_
        (by simp [hinit]) hlook hidnd
      rw [List.map_reverse, List.map_reverse, hinitKmap]
    have hstray : straysLoop keys st.bound
        ⟨st.children, st.bound, st.selectObservers, st.nextElemId, [], []⟩ =
        ⟨st.children, st.bound, st.selectObservers, st.nextElemId, [], []⟩ := by
      refine straysLoop_noop keys st.bound _ ?_
      intro p hp
      obtain ⟨hpc, hpk⟩ := hentries p hp
      rw [hdom p.1]
      refine Or.inr ?_
      rw [hpks, ← hpk]
      exact List.mem_map_of_mem _ hpc
    refine ⟨[], ?_, rfl⟩
    rw [arrangeElements, if_neg (by simpa using hitems), hkeq]
    simp only [hplace, hstray]

/-!
## Primitive facts about the DOM list operations and object maps
-/

/-- Detaching an id that no node carries is a no-op. -/
theorem domDetach_not_mem (nid : Nat) (l : List Elem) (h : nid ∉ l.map Elem.id) :
    domDetach nid l = l :=
  List.eraseP_of_forall_not fun a ha => by
    simp only [beq_iff_eq]
    intro he
    exact h (he ▸ List.mem_map_of_mem Elem.id ha)

/-- Nodes surviving a detach were already children. -/
theorem mem_of_mem_domDetach {x : Elem} {nid : Nat} {l : List Elem}
    (h : x ∈ domDetach nid l) : x ∈ l :=
  List.mem_of_mem_eraseP h

/-- Detaching distributes to the left part when the right part does not
carry the id. -/
theorem domDetach_append_left (nid : Nat) (Q M : List Elem)
    (h : nid ∉ M.map Elem.id) :
    domDetach nid (Q ++ M) = domDetach nid Q ++ M := by
  by_cases hq : nid ∈ Q.map Elem.id
  · obtain ⟨a, ha, hid⟩ := List.mem_map.mp hq
    exact List.eraseP_append_left (by simp [hid]) _ ha
  · have h1 : domDetach nid M = M := domDetach_not_mem nid M h
    have h2 : domDetach nid Q = Q := domDetach_not_mem nid Q hq
    calc domDetach nid (Q ++ M)
        = Q ++ domDetach nid M := by
          rw [domDetach, List.eraseP_append_right _ (fun b hb => by
            simp only [beq_iff_eq]
            intro he
            exact hq (he ▸ List.mem_map_of_mem Elem.id hb))]
          rfl
      _ = Q ++ M := by rw [h1]
      _ = domDetach nid Q ++ M := by rw [h2]

/-- Inserting a node before `ref` places it at the seam when `ref`
heads the suffix and is not shadowed by the prefix. -/
theorem insertBeforeList_append (e ref : Elem) :
    ∀ (Q rest : List Elem), ref.id ∉ Q.map Elem.id →
      insertBeforeList e ref (Q ++ ref :: rest) = Q ++ e :: ref :: rest := by
  intro Q
  induction Q with
  | nil => intro rest _; simp [insertBeforeList]
  | cons q Q' ih =>
      intro rest h
      have hq : q.id ≠ ref.id := by
        intro he
        exact h (by rw [← he]; simp)
      rw [List.cons_append, insertBeforeList, if_neg hq,
        ih rest (fun hm => h (by simp [hm]))]
      rfl

/-- Swapping out an id that no node carries is the identity. -/
theorem map_swap_not_mem (s c : Elem) (l : List Elem) (h : s.id ∉ l.map Elem.id) :
    l.map (fun x => if x.id = s.id then c else x) = l := by
  induction l with
  | nil => rfl
  | cons x xs ih =>
      have hx : x.id ≠ s.id := by
        intro he
        exact h (by rw [← he]; simp)
      have hxs : s.id ∉ xs.map Elem.id := fun hm => h (by simp [hm])
      simp [hx, ih hxs]

/-- Replacing `s` (which heads the suffix) with `c`: `c` is first
detached from the prefix, then swapped in at `s`'s position. -/
theorem domReplace_split (s c : Elem) (Q rest : List Elem)
    (hsc : s.id ≠ c.id)
    (hcrest : c.id ∉ (s :: rest).map Elem.id)
    (hsQ : s.id ∉ Q.map Elem.id) (hsrest : s.id ∉ rest.map Elem.id) :
    domReplace s c (Q ++ s :: rest) = domDetach c.id Q ++ c :: rest := by
  rw [domReplace, if_neg hsc, domDetach_append_left c.id Q (s :: rest) hcrest,
    List.map_append]
  congr 1
  · apply map_swap_not_mem
    intro hm
    obtain ⟨x, hx, hid⟩ := List.mem_map.mp hm
    exact hsQ (hid ▸ List.mem_map_of_mem Elem.id (mem_of_mem_domDetach hx))
  · rw [List.map_cons, if_pos rfl, map_swap_not_mem s c rest hsrest]

/-- Lookup after deleting a key. -/
theorem alookup_aerase (l : List (String × α)) (k k' : String) :
    alookup (aerase l k) k' = if k' = k then none else alookup l k' := by
  induction l with
  | nil => by_cases h : k' = k <;> simp [aerase, alookup, h]
  | cons p rest ih =>
      by_cases hpk : p.1 = k
      · rw [aerase, List.filter_cons_of_neg (by simp [hpk])]
        rw [show (List.filter (fun p => decide (p.1 ≠ k)) rest) = aerase rest k from rfl, ih]
        by_cases h : k' = k
        · simp [h]
        · have : p.1 ≠ k' := by rw [hpk]; exact fun he => h he.symm
          simp [h, alookup, this]
      · rw [aerase, List.filter_cons_of_pos (by simp [hpk])]
        by_cases hpk' : p.1 = k'
        · have hk' : k' ≠ k := by rw [← hpk']; exact hpk
          simp [alookup, hpk', hk']
        · rw [alookup, if_neg hpk',
            show (List.filter (fun p => decide (p.1 ≠ k)) rest) = aerase rest k from rfl, ih]
          by_cases h : k' = k <;> simp [h, alookup, hpk']

/-- Entries surviving a delete were already present. -/
theorem mem_of_mem_aerase {p : String × α} {l : List (String × α)} {k : String}
    (h : p ∈ aerase l k) : p ∈ l :=
  List.mem_of_mem_filter h

/-- Deleting a key keeps the key column duplicate-free. -/
theorem aerase_fst_nodup (l : List (String × α)) (k : String)
    (h : (l.map Prod.fst).Nodup) : ((aerase l k).map Prod.fst).Nodup :=
  List.Nodup.sublist (List.Sublist.map Prod.fst (List.filter_sublist l)) h

/-- Lookup in the overwrite map used by `aset` when the key exists. -/
theorem alookup_overwrite (l : List (String × α)) (k : String) (v : α) (k' : String) :
    alookup (l.map fun p => if p.1 = k then (k, v) else p) k' =
      if k' = k then (alookup l k).map (fun _ => v) else alookup l k' := by
  induction l with
  | nil => by_cases h : k' = k <;> simp [alookup, h]
  | cons p rest ih =>
      obtain ⟨pk1, pv⟩ := p
      simp only [List.map_cons]
      by_cases hpk : pk1 = k
      · rw [if_pos (by simpa using hpk)]
        by_cases h : k' = k
        · subst h
          rw [alookup, if_pos rfl, alookup, if_pos hpk]
          simp
        · have hp' : pk1 ≠ k' := by rw [hpk]; exact fun he => h he.symm
          conv_rhs => rw [if_neg h, alookup, if_neg hp']
          rw [alookup, if_neg (show ¬(k = k') from fun he => h he.symm), ih, if_neg h]
      · rw [if_neg (by simpa using hpk)]
        by_cases hpk' : pk1 = k'
        · have h : k' ≠ k := by rw [← hpk']; exact hpk
          rw [alookup, if_pos hpk', if_neg h, alookup, if_pos hpk']
        · rw [alookup, if_neg hpk', ih]
          by_cases h : k' = k
          · rw [if_pos h, if_pos h, show alookup ((pk1, pv) :: rest) k = alookup rest k from by
              rw [alookup, if_neg hpk]]
          · rw [if_neg h, if_neg h, alookup, if_neg hpk']

/-- Lookup after an insert-or-overwrite. -/
theorem alookup_aset (l : List (String × α)) (k : String) (v : α) (k' : String) :
    alookup (aset l k v) k' = if k' = k then some v else alookup l k' := by
  rw [aset]
  by_cases hs : (alookup l k).isSome
  · rw [if_pos hs, alookup_overwrite]
    by_cases h : k' = k
    · obtain ⟨w, hw⟩ := Option.isSome_iff_exists.mp hs
      simp [h, hw]
    · simp [h]
  · rw [if_neg hs, alookup_append]
    by_cases h : k' = k
    · subst h
      rw [Option.not_isSome_iff_eq_none.mp hs]
      simp [alookup]
    · cases halu : alookup l k' with
      | none =>
          have hk : k ≠ k' := fun he => h he.symm
          simp [alookup, hk, h]
      | some w => simp [h]

/-- Entries after an insert-or-overwrite: an old entry or the new one. -/
theorem mem_aset (l : List (String × α)) (k : String) (v : α) (p : String × α)
    (h : p ∈ aset l k v) : p ∈ l ∨ p = (k, v) := by
  rw [aset] at h
  by_cases hs : (alookup l k).isSome
  · rw [if_pos hs] at h
    obtain ⟨q, hq, hqe⟩ := List.mem_map.mp h
    by_cases hqk : q.1 = k
    · right
      rw [← hqe]
      simp [hqk]
    · left
      rw [← hqe]
      simpa [hqk] using hq
  · rw [if_neg hs] at h
    rcases List.mem_append.mp h with h | h
    · exact Or.inl h
    · exact Or.inr (by simpa using h)

/-- The key column is unchanged by an overwrite and extended by a fresh
insert; either way duplicate-freedom is preserved. -/
theorem aset_fst_nodup (l : List (String × α)) (k : String) (v : α)
    (h : (l.map Prod.fst).Nodup) : ((aset l k v).map Prod.fst).Nodup := by
  rw [aset]
  by_cases hs : (alookup l k).isSome
  · rw [if_pos hs]
    have : (l.map fun p => if p.1 = k then (k, v) else p).map Prod.fst = l.map Prod.fst := by
      rw [List.map_map]
      apply List.map_congr_left
      intro p _
      by_cases hpk : p.1 = k <;> simp [hpk]
    rw [this]
    exact h
  · rw [if_neg hs]
    have hk : k ∉ l.map Prod.fst := by
      rw [← alookup_isSome_iff]
      exact hs
    rw [List.map_append]
    simp only [List.map_cons, List.map_nil]
    rw [List.nodup_append]
    refine ⟨h, List.nodup_singleton k, fun a ha hb => ?_⟩
    rw [List.mem_singleton] at hb
    exact hk (hb ▸ ha)

/-- A lookup hit is an entry of the list. -/
theorem alookup_mem (l : List (String × α)) (k : String) (v : α)
    (h : alookup l k = some v) : (k, v) ∈ l := by
  induction l with
  | nil => cases h
  | cons p rest ih =>
      rw [alookup] at h
      by_cases hpk : p.1 = k
      · rw [if_pos hpk] at h
        obtain ⟨k₁, v₁⟩ := p
        simp only at hpk
        injection h with hv
        rw [← hpk, ← hv]
        exact List.mem_cons_self _ _
      · rw [if_neg hpk] at h
        exact List.mem_cons_of_mem _ (ih h)

/-- In the presence of a duplicate-free key column, a list member is
what lookup returns for its key. -/
theorem alookup_of_mem_nodup (l : List (String × α)) (p : String × α)
    (hmem : p ∈ l) (hnd : (l.map Prod.fst).Nodup) : alookup l p.1 = some p.2 := by
  induction l with
  | nil => cases hmem
  | cons q rest ih =>
      rw [List.map_cons, List.nodup_cons] at hnd
      rcases List.mem_cons.mp hmem with rfl | hmem'
      · rw [alookup, if_pos rfl]
      · have hne : q.1 ≠ p.1 := by
          intro he
          apply hnd.1
          rw [he]
          exact List.mem_map_of_mem Prod.fst hmem'
        rw [alookup, if_neg hne]
        exact ih hmem' hnd.2

/-- A duplicate-free image makes the function injective on the list. -/
theorem nodup_map_inj {α β : Type} (f : α → β) (l : List α)
    (hnd : (l.map f).Nodup) :
    ∀ a ∈ l, ∀ b ∈ l, f a = f b → a = b := by
  induction l with
  | nil => intro a ha; cases ha
  | cons x xs ih =>
      rw [List.map_cons, List.nodup_cons] at hnd
      intro a ha b hb he
      rcases List.mem_cons.mp ha with rfl | ha' <;>
        rcases List.mem_cons.mp hb with rfl | hb'
      · rfl
      · exfalso
        apply hnd.1
        rw [he]
        exact List.mem_map_of_mem f hb'
      · exfalso
        apply hnd.1
        rw [← he]
        exact List.mem_map_of_mem f ha'
      · exact ih hnd.2 a ha' b hb' he

/-- A node with a different id survives a detach. -/
theorem mem_domDetach_of_ne {x : Elem} {nid : Nat} {l : List Elem}
    (hx : x ∈ l) (hne : x.id ≠ nid) : x ∈ domDetach nid l := by
  induction l with
  | nil => cases hx
  | cons q rest ih =>
      rw [domDetach, List.eraseP_cons]
      by_cases hq : q.id = nid
      · rw [hq]
        simp only [beq_self_eq_true, cond_true]
        rcases List.mem_cons.mp hx with rfl | hx'
        · exact absurd hq hne
        · exact hx'
      · rw [show (q.id == nid) = false from beq_eq_false_iff_ne.mpr hq]
        simp only [cond_false]
        rcases List.mem_cons.mp hx with rfl | hx'
        · exact List.mem_cons_self _ _
        · exact List.mem_cons_of_mem _ (ih hx')

/-- After detaching an id from a duplicate-free child list, no
remaining node carries it. -/
theorem mem_domDetach_id_ne (nid : Nat) (l : List Elem)
    (hnd : (l.map Elem.id).Nodup) :
    ∀ x ∈ domDetach nid l, x.id ≠ nid := by
  induction l with
  | nil => intro x hx; cases hx
  | cons q rest ih =>
      rw [List.map_cons, List.nodup_cons] at hnd
      intro x hx
      rw [domDetach, List.eraseP_cons] at hx
      by_cases hq : q.id = nid
      · rw [hq] at hx
        simp only [beq_self_eq_true, cond_true] at hx
        intro he
        apply hnd.1
        rw [hq, ← he]
        exact List.mem_map_of_mem Elem.id hx
      · rw [show (q.id == nid) = false from beq_eq_false_iff_ne.mpr hq] at hx
        simp only [cond_false] at hx
        rcases List.mem_cons.mp hx with rfl | hx'
        · exact hq
        · exact ih hnd.2 x hx'

/-- Inserting a fresh-keyed node between a sub-prefix and the placed
suffix keeps the mapped column duplicate-free. -/
theorem nodup_middle_insert {α β : Type} (f : α → β) (P' P EB : List α) (c : α)
    (hsub : P'.Sublist P) (hnd : ((P ++ EB).map f).Nodup)
    (hcP : ∀ e ∈ P', f e ≠ f c) (hcE : f c ∉ EB.map f) :
    ((P' ++ c :: EB).map f).Nodup := by
  rw [List.map_append] at hnd ⊢
  rw [List.nodup_append] at hnd
  obtain ⟨hPnd, hEnd, hdisj⟩ := hnd
  rw [List.map_cons, List.nodup_append]
  refine ⟨hPnd.sublist (hsub.map f), ?_, ?_⟩
  · rw [List.nodup_cons]
    exact ⟨hcE, hEnd⟩
  · intro a ha hb
    obtain ⟨e, he, rfl⟩ := List.mem_map.mp ha
    rcases List.mem_cons.mp hb with he' | hb'
    · exact hcP e he he'
    · exact hdisj (List.mem_map_of_mem f ((hsub.subset) he)) hb'

/-!
## The placement-loop invariant (towards Lemma B)

Global context of one pass: `pks` is the full list of the items'
property keys, and `bound0`, `children0`, `nid0` are the bound map,
child list and id supply at the start of the pass.  At a point of the
right-to-left placement loop, `Bpks` lists the property keys already
placed (in collection order), `EB` their units (head = the unit placed
most recently, the loop's `prev`), and `P` is the prefix of the
parent's children not yet consumed by the loop.
-/

structure PInv (pks : List String) (bound0 : List (String × Elem))
    (children0 : List Elem) (nid0 : Nat)
    (Bpks : List String) (EB P : List Elem) (st : PassSt) : Prop where
  hch : st.children = P ++ EB
  hEB : EB.map (fun e => propKey e.key) = Bpks
  hBsub : ∀ pk ∈ Bpks, pk ∈ pks
  hlookEB : ∀ e ∈ EB, alookup st.bound (propKey e.key) = some e
  hP : ∀ e ∈ P, propKey e.key ∉ Bpks
  hpknd : (st.children.map fun e => propKey e.key).Nodup
  hidnd : (st.children.map Elem.id).Nodup
  htodo : ∀ pk ∈ pks, pk ∉ Bpks → alookup st.bound pk = alookup bound0 pk
  hstale : ∀ pk, pk ∉ pks → ∀ e, alookup st.bound pk = some e →
    e ∈ P ∧ alookup bound0 pk = some e
  hstaleP : ∀ e ∈ P, propKey e.key ∉ pks → alookup st.bound (propKey e.key) = some e
  hbk : ∀ p ∈ st.bound, propKey p.2.key = p.1
  hbnd : (st.bound.map Prod.fst).Nodup
  hPorig : ∀ e ∈ P, e ∈ children0
  horig : ∀ e ∈ st.children, e ∈ children0 ∨ (nid0 ≤ e.id ∧ e.id < st.nextElemId)
  hidlt : ∀ e ∈ st.children, e.id < st.nextElemId
  hnid : nid0 ≤ st.nextElemId

/-- From a duplicate-free mapped column over `Q ++ s :: R`: the middle
element's image appears in neither side. -/
theorem nodup_mid {α β : Type} (f : α → β) (Q R : List α) (s : α)
    (h : ((Q ++ s :: R).map f).Nodup) :
    f s ∉ Q.map f ∧ f s ∉ R.map f := by
  rw [List.map_append, List.nodup_append] at h
  obtain ⟨h1, h2, h3⟩ := h
  rw [List.map_cons, List.nodup_cons] at h2
  exact ⟨fun hm => h3 hm (List.mem_cons_self _ _), h2.1⟩

/-- From a duplicate-free mapped column over `Q ++ R`: images of the
left part never occur in the right part. -/
theorem nodup_append_disj {α β : Type} (f : α → β) (Q R : List α)
    (h : ((Q ++ R).map f).Nodup) : ∀ a ∈ Q, f a ∉ R.map f := by
  rw [List.map_append, List.nodup_append] at h
  exact fun a ha hm => h.2.2 (List.mem_map_of_mem f ha) hm

/-- Generic re-establishment of the invariant after one placement: the
new state's children are `P' ++ current :: EB` for a sub-prefix `P'` of
`P`, the bound map behaves as the old one except at the key just placed
(mapped to `current`) and at an optionally deleted stale key, and the
dropped prefix nodes are accounted for. -/
theorem PInv_update (pks : List String) (bound0 : List (String × Elem))
    (children0 : List Elem) (nid0 : Nat)
    (Bpks : List String) (EB P : List Elem) (st : PassSt)
    (hinv : PInv pks bound0 children0 nid0 Bpks EB P st)
    (r : JVal) (current : Elem) (P' : List Elem) (st' : PassSt)
    (erased : Option String)
    (hr : propKey r ∈ pks) (hrB : propKey r ∉ Bpks)
    (hck : propKey current.key = propKey r)
    (hch' : st'.children = P' ++ current :: EB)
    (hsub : P'.Sublist P)
    (hcPid : current.id ∉ P'.map Elem.id)
    (hcEid : current.id ∉ EB.map Elem.id)
    (hcPpk : ∀ e ∈ P', propKey e.key ≠ propKey r)
    (hE : ∀ pk, alookup st'.bound pk =
      if pk = propKey r then some current
      else if erased = some pk then none
      else alookup st.bound pk)
    (herased : ∀ pk_s, erased = some pk_s → pk_s ∉ pks)
    (hmem' : ∀ p ∈ st'.bound, p ∈ st.bound ∨ p = (propKey r, current))
    (hbnd' : (st'.bound.map Prod.fst).Nodup)
    (hkeep : ∀ e ∈ P, propKey e.key ∉ pks →
      (∀ pk_s, erased = some pk_s → propKey e.key ≠ pk_s) → e ∈ P')
    (herasedP : ∀ pk_s, erased = some pk_s → ∀ e ∈ P', propKey e.key ≠ pk_s)
    (hcor : current ∈ children0 ∨ (nid0 ≤ current.id ∧ current.id < st'.nextElemId))
    (hclt : current.id < st'.nextElemId)
    (hmono : st.nextElemId ≤ st'.nextElemId) :
    PInv pks bound0 children0 nid0 (propKey r :: Bpks) (current :: EB) P' st' := by
  obtain ⟨hch, hEB, hBsub, hlookEB, hP, hpknd, hidnd, htodo, hstale, hstaleP,
    hbk, hbnd, hPorig, horig, hidlt, hnid⟩ := hinv
  refine ⟨hch', ?_, ?_, ?_, ?_, ?_, ?_, ?_, ?_, ?_, ?_, hbnd', ?_, ?_, ?_, ?_⟩
  · rw [List.map_cons]
    show propKey current.key :: (EB.map fun e => propKey e.key) = propKey r :: Bpks
    rw [hck, hEB]
  · intro pk hpk
    rcases List.mem_cons.mp hpk with rfl | hpk'
    · exact hr
    · exact hBsub pk hpk'
  · intro e he
    rcases List.mem_cons.mp he with rfl | he'
    · rw [hck, hE, if_pos rfl]
    · have hepk : propKey e.key ∈ Bpks := by
        rw [← hEB]
        exact List.mem_map_of_mem _ he'
      have h1 : propKey e.key ≠ propKey r := by
        intro hc
        apply hrB
        rw [← hc]
        exact hepk
      have h2 : ¬ erased = some (propKey e.key) := by
        intro hc
        exact herased _ hc (hBsub _ hepk)
      rw [hE, if_neg h1, if_neg h2]
      exact hlookEB e he'
  · intro e he
    intro hc
    rcases List.mem_cons.mp hc with hc' | hc'
    · exact hcPpk e he hc'
    · exact hP e (hsub.subset he) hc'
  · rw [hch']
    refine nodup_middle_insert (fun e => propKey e.key) P' P EB current hsub
      (hch ▸ hpknd) (fun e he hc => ?_) ?_
    · exact hcPpk e he (by
        have hc' : propKey e.key = propKey current.key := hc
        rw [hc', hck])
    · show propKey current.key ∉ EB.map fun e => propKey e.key
      rw [hck, hEB]
      exact hrB
  · rw [hch']
    refine nodup_middle_insert Elem.id P' P EB current hsub (hch ▸ hidnd)
      (fun e he hc => ?_) hcEid
    apply hcPid
    rw [← hc]
    exact List.mem_map_of_mem Elem.id he
  · intro pk hpk hpkB
    have h1 : pk ≠ propKey r := fun hc => hpkB (by rw [hc]; exact List.mem_cons_self _ _)
    have h2 : ¬ erased = some pk := fun hc => herased pk hc hpk
    rw [hE, if_neg h1, if_neg h2]
    exact htodo pk hpk (fun hc => hpkB (List.mem_cons_of_mem _ hc))
  · intro pk hpk e he
    have h1 : pk ≠ propKey r := by
      intro hc
      apply hpk
      rw [hc]
      exact hr
    rw [hE, if_neg h1] at he
    by_cases h2 : erased = some pk
    · rw [if_pos h2] at he
      cases he
    · rw [if_neg h2] at he
      obtain ⟨heP, hb0⟩ := hstale pk hpk e he
      have hepk : propKey e.key = pk := hbk (pk, e) (alookup_mem _ _ _ he)
      refine ⟨hkeep e heP (by rw [hepk]; exact hpk) ?_, hb0⟩
      intro pk_s hps hc
      apply h2
      have hpspk : pk_s = pk := by rw [← hc, hepk]
      rw [hps, hpspk]
  · intro e he hepk
    have h1 : propKey e.key ≠ propKey r := by
      intro hc
      apply hepk
      rw [hc]
      exact hr
    have h2 : ¬ erased = some (propKey e.key) := by
      intro hc
      exact herasedP (propKey e.key) hc e he rfl
    rw [hE, if_neg h1, if_neg h2]
    exact hstaleP e (hsub.subset he) hepk
  · intro p hp
    rcases hmem' p hp with hp' | rfl
    · exact hbk p hp'
    · exact hck
  · intro e he
    exact hPorig e (hsub.subset he)
  · intro e he
    rw [hch'] at he
    rcases List.mem_append.mp he with he' | he'
    · exact Or.inl (hPorig e (hsub.subset he'))
    · rcases List.mem_cons.mp he' with rfl | he''
      · exact hcor
      · rcases horig e (by rw [hch]; exact List.mem_append_right _ he'') with h | h
        · exact Or.inl h
        · exact Or.inr ⟨h.1, lt_of_lt_of_le h.2 hmono⟩
  · intro e he
    rw [hch'] at he
    rcases List.mem_append.mp he with he' | he'
    · exact lt_of_lt_of_le (hidlt e (by rw [hch]; exact List.mem_append_left _ (hsub.subset he'))) hmono
    · rcases List.mem_cons.mp he' with rfl | he''
      · exact hclt
      · exact lt_of_lt_of_le (hidlt e (by rw [hch]; exact List.mem_append_right _ he'')) hmono
  · exact le_trans hnid hmono

/-- Every list is nil or a prefix plus a last element. -/
theorem list_concat_cases {α : Type} (l : List α) : l = [] ∨ ∃ Q s, l = Q ++ [s] := by
  cases hrev : l.reverse with
  | nil => exact Or.inl (by simpa using congrArg List.reverse hrev)
  | cons x xs =>
      refine Or.inr ⟨xs.reverse, x, ?_⟩
      have := congrArg List.reverse hrev
      simpa using this

/-- One step of the placement loop preserves the invariant, placing the
key's unit (reused or freshly rendered) directly left of `prevE`. -/
theorem placeStep_inv (pks : List String) (keys : List (String × Nat))
    (bound0 : List (String × Elem)) (children0 : List Elem) (nid0 : Nat)
    (hdom : ∀ pk, (alookup keys pk).isSome ↔ pk ∈ pks)
    (h0look : ∀ e ∈ children0, alookup bound0 (propKey e.key) = some e)
    (h0ent : ∀ p ∈ bound0, p.2 ∈ children0)
    (h0idnd : (children0.map Elem.id).Nodup)
    (h0id : ∀ e ∈ children0, e.id < nid0)
    (r : JVal) (Bpks : List String) (prevE : Elem) (EB' P : List Elem) (st : PassSt)
    (hr : propKey r ∈ pks) (hrB : propKey r ∉ Bpks)
    (hinv : PInv pks bound0 children0 nid0 Bpks (prevE :: EB') P st) :
    ∃ (current : Elem) (P' : List Elem) (st' : PassSt),
      placeStep keys (some prevE) r st = (st', current) ∧
      PInv pks bound0 children0 nid0 (propKey r :: Bpks)
        (current :: prevE :: EB') P' st' := by
  have hch := hinv.hch
  have hpknd := hinv.hpknd
  have hidnd := hinv.hidnd
  have hidlt := hinv.hidlt
  have hnid := hinv.hnid
  have htodoR : alookup st.bound (propKey r) = alookup bound0 (propKey r) :=
    hinv.htodo _ hr hrB
  cases hfound : alookup st.bound (propKey r) with
  | none =>
      -- no unit is bound under the key: a fresh one is rendered
      have hno : ∀ e ∈ st.children, propKey e.key ≠ propKey r := by
        intro e he hpk
        rw [hch] at he
        rcases List.mem_append.mp he with heP | heE
        · have he0 := hinv.hPorig e heP
          have hl := h0look e he0
          rw [hpk] at hl
          rw [htodoR, hl] at hfound
          cases hfound
        · apply hrB
          rw [← hinv.hEB, ← hpk]
          exact List.mem_map_of_mem _ heE
      have hidfresh : st.nextElemId ∉ st.children.map Elem.id := by
        intro hm
        obtain ⟨e, he, hide⟩ := List.mem_map.mp hm
        exact absurd hide (Nat.ne_of_lt (hidlt e he))
      rcases list_concat_cases P with rfl | ⟨Q, s, rfl⟩
      · -- no children left of prev: insert the fresh unit before it
        have hch0 : st.children = prevE :: EB' := by rw [hch, List.nil_append]
        have hprev : prevSibling prevE st.children = none := by
          rw [hch0]
          exact prevSibling_head _ _
        have hchEq : domInsertBefore ⟨st.nextElemId, r, true⟩ prevE st.children =
            ⟨st.nextElemId, r, true⟩ :: prevE :: EB' := by
          rw [domInsertBefore]
          show insertBeforeList _ prevE (domDetach st.nextElemId st.children) = _
          rw [domDetach_not_mem _ _ hidfresh, hch0]
          simpa using insertBeforeList_append ⟨st.nextElemId, r, true⟩ prevE [] EB' (by simp)
        have hcEid : (⟨st.nextElemId, r, true⟩ : Elem).id ∉ (prevE :: EB').map Elem.id := by
          show st.nextElemId ∉ _
          rw [← hch0]
          exact hidfresh
        have hE : ∀ pk, alookup (aset st.bound (propKey r) ⟨st.nextElemId, r, true⟩) pk =
            if pk = propKey r then some ⟨st.nextElemId, r, true⟩
            else if (none : Option String) = some pk then none
            else alookup st.bound pk := by
          intro pk
          rw [alookup_aset]
          by_cases hpk : pk = propKey r
          · rw [if_pos hpk, if_pos hpk]
          · rw [if_neg hpk, if_neg hpk, if_neg (fun hc => Option.noConfusion hc)]
        refine ⟨⟨st.nextElemId, r, true⟩, [],
          ⟨⟨st.nextElemId, r, true⟩ :: prevE :: EB',
           aset st.bound (propKey r) ⟨st.nextElemId, r, true⟩,
           st.selectObservers, st.nextElemId + 1,
           st.ops ++ [.insertBefore st.nextElemId prevE.id],
           st.rendered ++ [propKey r]⟩, ?_, ?_⟩
        · simp [placeStep, hfound, hprev, hchEq]
        · exact PInv_update pks bound0 children0 nid0 Bpks (prevE :: EB') [] st hinv
            r ⟨st.nextElemId, r, true⟩ [] _ none hr hrB rfl rfl (List.nil_sublist _)
            (by simp) hcEid (fun e he => absurd he (List.not_mem_nil e)) hE
            (fun pk hc => Option.noConfusion hc) (fun p hp => mem_aset _ _ _ p hp)
            (aset_fst_nodup _ _ _ hinv.hbnd)
            (fun e he => absurd he (List.not_mem_nil e))
            (fun pk hc => Option.noConfusion hc)
            (Or.inr ⟨hnid, Nat.lt_succ_self _⟩) (Nat.lt_succ_self _) (Nat.le_succ _)
      · -- children remain left of prev: look at prev's left sibling
        have hchQ : st.children = Q ++ s :: prevE :: EB' := by
          rw [hch, List.append_assoc, List.singleton_append]
        have hprev : prevSibling prevE st.children = some s := by
          rw [hchQ]
          exact prevSibling_append prevE s Q EB' (by rw [← hchQ]; exact hidnd)
        have hidndQ : ((Q ++ s :: prevE :: EB').map Elem.id).Nodup := by
          rw [← hchQ]; exact hidnd
        have hsid := nodup_mid Elem.id Q (prevE :: EB') s hidndQ
        have hpkndQ : ((Q ++ s :: prevE :: EB').map fun e => propKey e.key).Nodup := by
          rw [← hchQ]; exact hpknd
        have hspk := nodup_mid (fun e => propKey e.key) Q (prevE :: EB') s hpkndQ
        have hsK : s ∈ st.children := by
          rw [hchQ]
          exact List.mem_append_right _ (List.mem_cons_self _ _)
        have hskey : ¬ s.key = (⟨st.nextElemId, r, true⟩ : Elem).key := by
          show ¬ s.key = r
          intro he
          exact hno s hsK (by rw [he])
        have hidQfresh : st.nextElemId ∉ Q.map Elem.id := by
          intro hm
          apply hidfresh
          rw [hchQ, List.map_append]
          exact List.mem_append_left _ hm
        have hcPmem : st.nextElemId ∉ (Q ++ [s]).map Elem.id := by
          intro hm
          apply hidfresh
          rw [hch, List.map_append]
          exact List.mem_append_left _ hm
        have hcEmem : (⟨st.nextElemId, r, true⟩ : Elem).id ∉ (prevE :: EB').map Elem.id := by
          show st.nextElemId ∉ _
          intro hm
          apply hidfresh
          rw [hch, List.map_append]
          exact List.mem_append_right _ hm
        have hcPpkF : ∀ e ∈ Q ++ [s], propKey e.key ≠ propKey r := by
          intro e he
          exact hno e (by rw [hch]; exact List.mem_append_left _ he)
        have hEF : ∀ pk, alookup (aset st.bound (propKey r) ⟨st.nextElemId, r, true⟩) pk =
            if pk = propKey r then some ⟨st.nextElemId, r, true⟩
            else if (none : Option String) = some pk then none
            else alookup st.bound pk := by
          intro pk
          rw [alookup_aset]
          by_cases hpk : pk = propKey r
          · rw [if_pos hpk, if_pos hpk]
          · rw [if_neg hpk, if_neg hpk, if_neg (fun hc => Option.noConfusion hc)]
        by_cases hpkS : propKey s.key ∈ pks
        · -- the occupying sibling stays in the collection: insert the
          -- fresh unit before prev
          obtain ⟨w, hw⟩ := Option.isSome_iff_exists.mp ((hdom (propKey s.key)).mpr hpkS)
          have hprevQ : prevE.id ∉ (Q ++ [s]).map Elem.id :=
            (nodup_mid Elem.id (Q ++ [s]) EB' prevE (by rw [← hch]; exact hidnd)).1
          have hchEq : domInsertBefore ⟨st.nextElemId, r, true⟩ prevE st.children =
              (Q ++ [s]) ++ ⟨st.nextElemId, r, true⟩ :: prevE :: EB' := by
            rw [domInsertBefore]
            show insertBeforeList _ prevE (domDetach st.nextElemId st.children) = _
            rw [domDetach_not_mem _ _ hidfresh, hch]
            exact insertBeforeList_append _ prevE (Q ++ [s]) EB' hprevQ
          refine ⟨⟨st.nextElemId, r, true⟩, Q ++ [s],
            ⟨(Q ++ [s]) ++ ⟨st.nextElemId, r, true⟩ :: prevE :: EB',
             aset st.bound (propKey r) ⟨st.nextElemId, r, true⟩,
             st.selectObservers, st.nextElemId + 1,
             st.ops ++ [.insertBefore st.nextElemId prevE.id],
             st.rendered ++ [propKey r]⟩, ?_, ?_⟩
          · simp [placeStep, hfound, hprev, hskey, hw, hchEq]
          · exact PInv_update pks bound0 children0 nid0 Bpks (prevE :: EB') (Q ++ [s]) st hinv
              r ⟨st.nextElemId, r, true⟩ (Q ++ [s]) _ none hr hrB rfl
              (by rw [List.append_assoc]) (List.Sublist.refl _)
              hcPmem hcEmem hcPpkF hEF
              (fun pk hc => Option.noConfusion hc) (fun p hp => mem_aset _ _ _ p hp)
              (aset_fst_nodup _ _ _ hinv.hbnd)
              (fun e he _ _ => he)
              (fun pk hc => Option.noConfusion hc)
              (Or.inr ⟨hnid, Nat.lt_succ_self _⟩) (Nat.lt_succ_self _) (Nat.le_succ _)
        · -- the occupying sibling's key left the collection: it is
          -- replaced in place by the fresh unit and dropped from the maps
          have hkeysN : alookup keys (propKey s.key) = none :=
            Option.not_isSome_iff_eq_none.mp (fun hsm => hpkS ((hdom _).mp hsm))
          have hsr : propKey s.key ≠ propKey r := fun he => hpkS (he ▸ hr)
          have hcrestF : (⟨st.nextElemId, r, true⟩ : Elem).id ∉
              (s :: prevE :: EB').map Elem.id := by
            show st.nextElemId ∉ _
            intro hm
            apply hidfresh
            rw [hchQ, List.map_append]
            exact List.mem_append_right _ hm
          have hrepF : domReplace s ⟨st.nextElemId, r, true⟩ st.children =
              Q ++ ⟨st.nextElemId, r, true⟩ :: prevE :: EB' := by
            rw [hchQ, domReplace_split s _ Q (prevE :: EB')
              (show s.id ≠ (⟨st.nextElemId, r, true⟩ : Elem).id from
                Nat.ne_of_lt (hidlt s hsK))
              hcrestF hsid.1 hsid.2]
            rw [show domDetach (⟨st.nextElemId, r, true⟩ : Elem).id Q = Q from
              domDetach_not_mem _ _ hidQfresh]
          have hES : ∀ pk,
              alookup (aerase (aset st.bound (propKey r) ⟨st.nextElemId, r, true⟩)
                (propKey s.key)) pk =
              if pk = propKey r then some ⟨st.nextElemId, r, true⟩
              else if some (propKey s.key) = some pk then none
              else alookup st.bound pk := by
            intro pk
            rw [alookup_aerase, alookup_aset]
            by_cases h1 : pk = propKey r
            · rw [if_neg (show ¬ pk = propKey s.key by
                rw [h1]; exact fun hc => hsr hc.symm), if_pos h1, if_pos h1]
            · by_cases h2 : pk = propKey s.key
              · rw [if_pos h2, if_neg h1,
                  if_pos (show (some (propKey s.key) : Option String) = some pk by rw [h2])]
              · rw [if_neg h2, if_neg h1, if_neg h1,
                  if_neg (fun hc => h2 (Option.some.inj hc).symm)]
          refine ⟨⟨st.nextElemId, r, true⟩, Q,
            ⟨Q ++ ⟨st.nextElemId, r, true⟩ :: prevE :: EB',
             aerase (aset st.bound (propKey r) ⟨st.nextElemId, r, true⟩) (propKey s.key),
             if (alookup st.selectObservers (propKey s.key)).isSome then
               aerase st.selectObservers (propKey s.key)
             else st.selectObservers,
             st.nextElemId + 1,
             st.ops ++ [.replaceWith s.id st.nextElemId],
             st.rendered ++ [propKey r]⟩, ?_, ?_⟩
          · by_cases hsel : (alookup st.selectObservers (propKey s.key)).isSome = true
            · simp [placeStep, hfound, hprev, hskey, hkeysN, hrepF, hsel]
            · simp [placeStep, hfound, hprev, hskey, hkeysN, hrepF, hsel]
          · exact PInv_update pks bound0 children0 nid0 Bpks (prevE :: EB') (Q ++ [s]) st hinv
              r ⟨st.nextElemId, r, true⟩ Q _ (some (propKey s.key)) hr hrB rfl rfl
              (List.sublist_append_left _ _)
              hidQfresh hcEmem
              (fun e he => hcPpkF e (List.mem_append_left _ he)) hES
              (fun pk hc => by injection hc with hc'; exact hc' ▸ hpkS)
              (fun p hp => mem_aset _ _ _ p (mem_of_mem_aerase hp))
              (aerase_fst_nodup _ _ (aset_fst_nodup _ _ _ hinv.hbnd))
              (by
                intro e he hpk hne
                rcases List.mem_append.mp he with h | h
                · exact h
                · rw [List.mem_singleton] at h
                  exact absurd (by rw [h] : propKey e.key = propKey s.key) (hne _ rfl))
              (by
                intro pks2 hc e he hpe
                injection hc with hc'
                have hq : propKey e.key = propKey s.key := by rw [hpe, ← hc']
                have hm : propKey e.key ∈ Q.map fun x => propKey x.key :=
                  List.mem_map_of_mem _ he
                rw [hq] at hm
                exact hspk.1 hm)
              (Or.inr ⟨hnid, Nat.lt_succ_self _⟩) (Nat.lt_succ_self _) (Nat.le_succ _)
  | some e_r =>
      -- the key's unit exists in the bound map
      have hck : propKey e_r.key = propKey r :=
        hinv.hbk (propKey r, e_r) (alookup_mem _ _ _ hfound)
      have hb0r : alookup bound0 (propKey r) = some e_r := by
        rw [← htodoR]
        exact hfound
      have her0 : e_r ∈ children0 := h0ent _ (alookup_mem _ _ _ hb0r)
      have herlt : e_r.id < nid0 := h0id e_r her0
      have herE : e_r ∉ prevE :: EB' := by
        intro hm
        apply hrB
        rw [← hinv.hEB, ← hck]
        exact List.mem_map_of_mem _ hm
      have hdetach_id : e_r ∉ st.children → e_r.id ∉ st.children.map Elem.id := by
        intro hnm hm
        obtain ⟨e2, he2, hide⟩ := List.mem_map.mp hm
        rcases hinv.horig e2 he2 with h0 | hfr
        · have hee : e2 = e_r := nodup_map_inj Elem.id children0 h0idnd e2 h0 e_r her0 hide
          exact hnm (hee ▸ he2)
        · have hle : nid0 ≤ e_r.id := by rw [← hide]; exact hfr.1
          exact absurd herlt (Nat.not_lt.mpr hle)
      rcases list_concat_cases P with rfl | ⟨Q, s, rfl⟩
      · -- the unit is detached: insert it before prev
        have hch0 : st.children = prevE :: EB' := by rw [hch, List.nil_append]
        have hernm : e_r ∉ st.children := by rw [hch0]; exact herE
        have herid : e_r.id ∉ st.children.map Elem.id := hdetach_id hernm
        have hprev : prevSibling prevE st.children = none := by
          rw [hch0]
          exact prevSibling_head _ _
        have hchEq : domInsertBefore e_r prevE st.children = e_r :: prevE :: EB' := by
          rw [domInsertBefore, domDetach_not_mem _ _ herid, hch0]
          simpa using insertBeforeList_append e_r prevE [] EB' (by simp)
        have hE : ∀ pk, alookup st.bound pk =
            if pk = propKey r then some e_r
            else if (none : Option String) = some pk then none
            else alookup st.bound pk := by
          intro pk
          by_cases h1 : pk = propKey r
          · rw [if_pos h1, h1]
            exact hfound
          · rw [if_neg h1, if_neg (fun hc => Option.noConfusion hc)]
        refine ⟨e_r, [], ⟨e_r :: prevE :: EB', st.bound, st.selectObservers,
          st.nextElemId, st.ops ++ [.insertBefore e_r.id prevE.id], st.rendered⟩, ?_, ?_⟩
        · simp [placeStep, hfound, hprev, hchEq]
        · exact PInv_update pks bound0 children0 nid0 Bpks (prevE :: EB') [] st hinv
            r e_r [] _ none hr hrB hck rfl (List.nil_sublist _)
            (by simp) (hch0 ▸ herid) (fun e he => absurd he (List.not_mem_nil e)) hE
            (fun pk hc => Option.noConfusion hc) (fun p hp => Or.inl hp) hinv.hbnd
            (fun e he => absurd he (List.not_mem_nil e))
            (fun pk hc => Option.noConfusion hc)
            (Or.inl her0) (lt_of_lt_of_le herlt hnid) (le_refl _)
      · have hchQ : st.children = Q ++ s :: prevE :: EB' := by
          rw [hch, List.append_assoc, List.singleton_append]
        have hprev : prevSibling prevE st.children = some s := by
          rw [hchQ]
          exact prevSibling_append prevE s Q EB' (by rw [← hchQ]; exact hidnd)
        have hidndQ : ((Q ++ s :: prevE :: EB').map Elem.id).Nodup := by
          rw [← hchQ]; exact hidnd
        have hsid := nodup_mid Elem.id Q (prevE :: EB') s hidndQ
        have hpkndQ : ((Q ++ s :: prevE :: EB').map fun e => propKey e.key).Nodup := by
          rw [← hchQ]; exact hpknd
        have hspk := nodup_mid (fun e => propKey e.key) Q (prevE :: EB') s hpkndQ
        have hsK : s ∈ st.children := by
          rw [hchQ]
          exact List.mem_append_right _ (List.mem_cons_self _ _)
        have hQsub : ∀ x ∈ Q, x ∈ st.children := by
          intro x hx
          rw [hchQ]
          exact List.mem_append_left _ hx
        have hQidnd : (Q.map Elem.id).Nodup := by
          have hq := hidndQ
          rw [List.map_append, List.nodup_append] at hq
          exact hq.1
        by_cases hskey : s.key = e_r.key
        · -- the unit already sits directly left of prev: nothing to do
          have hs0 : s ∈ children0 :=
            hinv.hPorig s (List.mem_append_right _ (List.mem_singleton.mpr rfl))
          have hls := h0look s hs0
          have hpkse : propKey s.key = propKey r := by
            rw [hskey]
            exact hck
          have hse : s = e_r := by
            rw [hpkse, hb0r] at hls
            exact (Option.some.inj hls).symm
          have hchE : st.children = Q ++ e_r :: prevE :: EB' := by rw [hchQ, hse]
          have hcPpk : ∀ e ∈ Q, propKey e.key ≠ propKey r := by
            intro e he hc
            rw [← hpkse] at hc
            have hm : propKey e.key ∈ Q.map fun x => propKey x.key :=
              List.mem_map_of_mem _ he
            rw [hc] at hm
            exact hspk.1 hm
          have hE : ∀ pk, alookup st.bound pk =
              if pk = propKey r then some e_r
              else if (none : Option String) = some pk then none
              else alookup st.bound pk := by
            intro pk
            by_cases h1 : pk = propKey r
            · rw [if_pos h1, h1]
              exact hfound
            · rw [if_neg h1, if_neg (fun hc => Option.noConfusion hc)]
          refine ⟨e_r, Q, st, ?_, ?_⟩
          · simp [placeStep, hfound, hprev, hskey]
          · exact PInv_update pks bound0 children0 nid0 Bpks (prevE :: EB') (Q ++ [s]) st hinv
              r e_r Q st none hr hrB hck hchE (List.sublist_append_left _ _)
              (hse ▸ hsid.1) (hse ▸ hsid.2) hcPpk hE
              (fun pk hc => Option.noConfusion hc) (fun p hp => Or.inl hp) hinv.hbnd
              (by
                intro e he hpk _
                rcases List.mem_append.mp he with h | h
                · exact h
                · exfalso
                  rw [List.mem_singleton] at h
                  exact hpk (by rw [h, hpkse]; exact hr))
              (fun pk hc => Option.noConfusion hc)
              (Or.inl her0) (lt_of_lt_of_le herlt hnid) (le_refl _)
        · -- the unit is elsewhere (or detached): the occupying sibling
          -- is replaced by it (a move), possibly after stale cleanup
          have hsne : s ≠ e_r := fun hc => hskey (by rw [hc])
          have hEmem : e_r ∈ Q ∨ e_r.id ∉ st.children.map Elem.id := by
            by_cases hmem : e_r ∈ st.children
            · left
              rw [hchQ] at hmem
              rcases List.mem_append.mp hmem with h | h
              · exact h
              · rcases List.mem_cons.mp h with h2 | h2
                · exact absurd h2.symm hsne
                · exact absurd h2 herE
            · exact Or.inr (hdetach_id hmem)
          have hscid : s.id ≠ e_r.id := by
            rcases hEmem with h | h
            · intro hc
              exact hsid.1 (hc.symm ▸ List.mem_map_of_mem Elem.id h)
            · intro hc
              exact h (hc ▸ List.mem_map_of_mem Elem.id hsK)
          have hcrest : e_r.id ∉ (s :: prevE :: EB').map Elem.id := by
            rcases hEmem with h | h
            · exact nodup_append_disj Elem.id Q (s :: prevE :: EB') hidndQ e_r h
            · intro hm
              apply h
              rw [hchQ, List.map_append]
              exact List.mem_append_right _ hm
          have hrep : domReplace s e_r st.children =
              domDetach e_r.id Q ++ e_r :: prevE :: EB' := by
            rw [hchQ]
            exact domReplace_split s e_r Q (prevE :: EB') hscid hcrest hsid.1 hsid.2
          have hcPid : e_r.id ∉ (domDetach e_r.id Q).map Elem.id := by
            intro hm
            obtain ⟨x, hx, hxe⟩ := List.mem_map.mp hm
            exact mem_domDetach_id_ne e_r.id Q hQidnd x hx hxe
          have hcEid2 : e_r.id ∉ (prevE :: EB').map Elem.id := by
            intro hm
            exact hcrest (by rw [List.map_cons]; exact List.mem_cons_of_mem _ hm)
          have hcPpk2 : ∀ e ∈ domDetach e_r.id Q, propKey e.key ≠ propKey r := by
            intro e he hc
            have heQ : e ∈ Q := mem_of_mem_domDetach he
            have he0 : e ∈ children0 := hinv.hPorig e (List.mem_append_left _ heQ)
            have hle := h0look e he0
            rw [hc, hb0r] at hle
            have hee : e = e_r := (Option.some.inj hle).symm
            exact mem_domDetach_id_ne e_r.id Q hQidnd e he (by rw [hee])
          have hidQne : ∀ e ∈ Q, propKey e.key ∉ pks → e.id ≠ e_r.id := by
            intro e he hpk hc
            rcases hEmem with h | h
            · have hee : e = e_r :=
                nodup_map_inj Elem.id st.children hidnd e (hQsub e he) e_r (hQsub e_r h) hc
              exact hpk (by rw [hee, hck]; exact hr)
            · exact h (hc ▸ List.mem_map_of_mem Elem.id (hQsub e he))
          by_cases hpkS : propKey s.key ∈ pks
          · -- pure move: the sibling keeps its binding, only positions change
            obtain ⟨w, hw⟩ := Option.isSome_iff_exists.mp ((hdom (propKey s.key)).mpr hpkS)
            have hE : ∀ pk, alookup st.bound pk =
                if pk = propKey r then some e_r
                else if (none : Option String) = some pk then none
                else alookup st.bound pk := by
              intro pk
              by_cases h1 : pk = propKey r
              · rw [if_pos h1, h1]
                exact hfound
              · rw [if_neg h1, if_neg (fun hc => Option.noConfusion hc)]
            refine ⟨e_r, domDetach e_r.id Q,
              ⟨domDetach e_r.id Q ++ e_r :: prevE :: EB', st.bound, st.selectObservers,
               st.nextElemId, st.ops ++ [.replaceWith s.id e_r.id], st.rendered⟩, ?_, ?_⟩
            · simp [placeStep, hfound, hprev, hskey, hw, hrep]
            · exact PInv_update pks bound0 children0 nid0 Bpks (prevE :: EB') (Q ++ [s]) st hinv
                r e_r (domDetach e_r.id Q) _ none hr hrB hck rfl
                (List.Sublist.trans (List.eraseP_sublist _) (List.sublist_append_left _ _))
                hcPid hcEid2 hcPpk2 hE
                (fun pk hc => Option.noConfusion hc) (fun p hp => Or.inl hp) hinv.hbnd
                (by
                  intro e he hpk _
                  rcases List.mem_append.mp he with h | h
                  · exact mem_domDetach_of_ne h (hidQne e h hpk)
                  · rw [List.mem_singleton] at h
                    exact absurd (show propKey e.key ∈ pks by rw [h]; exact hpkS) hpk)
                (fun pk hc => Option.noConfusion hc)
                (Or.inl her0) (lt_of_lt_of_le herlt hnid) (le_refl _)
          · -- the sibling is stale: it is dropped from the maps and
            -- replaced in place by the moved unit
            have hkeysN : alookup keys (propKey s.key) = none :=
              Option.not_isSome_iff_eq_none.mp (fun hsm => hpkS ((hdom _).mp hsm))
            have hsr : propKey s.key ≠ propKey r := fun he => hpkS (he ▸ hr)
            have hES : ∀ pk, alookup (aerase st.bound (propKey s.key)) pk =
                if pk = propKey r then some e_r
                else if some (propKey s.key) = some pk then none
                else alookup st.bound pk := by
              intro pk
              rw [alookup_aerase]
              by_cases h1 : pk = propKey r
              · rw [if_neg (show ¬ pk = propKey s.key by
                  rw [h1]; exact fun hc => hsr hc.symm), if_pos h1, h1]
                exact hfound
              · by_cases h2 : pk = propKey s.key
                · rw [if_pos h2, if_neg h1,
                    if_pos (show (some (propKey s.key) : Option String) = some pk by rw [h2])]
                · rw [if_neg h2, if_neg h1,
                    if_neg (fun hc => h2 (Option.some.inj hc).symm)]
            refine ⟨e_r, domDetach e_r.id Q,
              ⟨domDetach e_r.id Q ++ e_r :: prevE :: EB',
               aerase st.bound (propKey s.key),
               if (alookup st.selectObservers (propKey s.key)).isSome && e_r.hasIAE then
                 aerase st.selectObservers (propKey s.key)
               else st.selectObservers,
               st.nextElemId, st.ops ++ [.replaceWith s.id e_r.id], st.rendered⟩, ?_, ?_⟩
            · by_cases hsel :
                ((alookup st.selectObservers (propKey s.key)).isSome && e_r.hasIAE) = true
              · simp [placeStep, hfound, hprev, hskey, hkeysN, hrep, hsel]
              · simp [placeStep, hfound, hprev, hskey, hkeysN, hrep, hsel]
            · exact PInv_update pks bound0 children0 nid0 Bpks (prevE :: EB') (Q ++ [s]) st hinv
                r e_r (domDetach e_r.id Q) _ (some (propKey s.key)) hr hrB hck rfl
                (List.Sublist.trans (List.eraseP_sublist _) (List.sublist_append_left _ _))
                hcPid hcEid2 hcPpk2 hES
                (fun pk hc => by injection hc with hc'; exact hc' ▸ hpkS)
                (fun p hp => Or.inl (mem_of_mem_aerase hp))
                (aerase_fst_nodup _ _ hinv.hbnd)
                (by
                  intro e he hpk hne
                  rcases List.mem_append.mp he with h | h
                  · exact mem_domDetach_of_ne h (hidQne e h hpk)
                  · rw [List.mem_singleton] at h
                    exact absurd (show propKey e.key = propKey s.key by rw [h]) (hne _ rfl))
                (by
                  intro pks2 hc e he hpe
                  injection hc with hc'
                  have hq : propKey e.key = propKey s.key := by rw [hpe, ← hc']
                  have hm : propKey e.key ∈ Q.map fun x => propKey x.key :=
                    List.mem_map_of_mem _ (mem_of_mem_domDetach he)
                  rw [hq] at hm
                  exact hspk.1 hm)
                (Or.inl her0) (lt_of_lt_of_le herlt hnid) (le_refl _)

/-- The placement loop preserves the invariant across the remaining
(reversed) raw keys, ending with every property key placed. -/
theorem placeLoop_inv (pks : List String) (keys : List (String × Nat))
    (bound0 : List (String × Elem)) (children0 : List Elem) (nid0 : Nat)
    (hdom : ∀ pk, (alookup keys pk).isSome ↔ pk ∈ pks)
    (h0look : ∀ e ∈ children0, alookup bound0 (propKey e.key) = some e)
    (h0ent : ∀ p ∈ bound0, p.2 ∈ children0)
    (h0idnd : (children0.map Elem.id).Nodup)
    (h0id : ∀ e ∈ children0, e.id < nid0)
    (hnd : pks.Nodup) :
    ∀ (R : List JVal) (Bpks : List String) (prevE : Elem) (EB' P : List Elem) (st : PassSt),
      (R.map fun k => propKey k).reverse ++ Bpks = pks →
      PInv pks bound0 children0 nid0 Bpks (prevE :: EB') P st →
      ∃ (EBf Pf : List Elem) (stf : PassSt),
        placeLoop keys R (some prevE) st = stf ∧
        PInv pks bound0 children0 nid0 pks EBf Pf stf := by
  intro R
  induction R with
  | nil =>
      intro Bpks prevE EB' P st hBp hinv
      rw [List.map_nil, List.reverse_nil, List.nil_append] at hBp
      subst hBp
      exact ⟨prevE :: EB', P, st, rfl, hinv⟩
  | cons r R2 ih =>
      intro Bpks prevE EB' P st hBp hinv
      rw [List.map_cons, List.reverse_cons, List.append_assoc, List.singleton_append] at hBp
      have hr : propKey r ∈ pks := by
        rw [← hBp]
        exact List.mem_append_right _ (List.mem_cons_self _ _)
      have hrB : propKey r ∉ Bpks := by
        have hnd2 := hnd
        rw [← hBp] at hnd2
        exact (List.nodup_cons.mp (List.Nodup.of_append_right hnd2)).1
      obtain ⟨current, P', st', hps, hinv'⟩ :=
        placeStep_inv pks keys bound0 children0 nid0 hdom h0look h0ent h0idnd h0id
          r Bpks prevE EB' P st hr hrB hinv
      obtain ⟨EBf, Pf, stf, hloop, hinvf⟩ :=
        ih (propKey r :: Bpks) current (prevE :: EB') P' st' hBp hinv'
      refine ⟨EBf, Pf, stf, ?_, hinvf⟩
      simp only [placeLoop, hps]
      exact hloop

/-- The first placement step of a pass (no `prev` yet): the last raw
key's unit ends up as the parent's last child. -/
theorem placeStep0_inv (pks : List String) (keys : List (String × Nat))
    (bound0 : List (String × Elem)) (children0 : List Elem) (nid0 : Nat)
    (h0look : ∀ e ∈ children0, alookup bound0 (propKey e.key) = some e)
    (h0ent : ∀ p ∈ bound0, p.2 ∈ children0)
    (h0idnd : (children0.map Elem.id).Nodup)
    (h0id : ∀ e ∈ children0, e.id < nid0)
    (r : JVal) (P : List Elem) (st : PassSt)
    (hr : propKey r ∈ pks)
    (hinv : PInv pks bound0 children0 nid0 [] [] P st) :
    ∃ (current : Elem) (P' : List Elem) (st' : PassSt),
      placeStep keys none r st = (st', current) ∧
      PInv pks bound0 children0 nid0 [propKey r] [current] P' st' := by
  have hch := hinv.hch
  have hchP : st.children = P := by rw [hch, List.append_nil]
  have hpknd := hinv.hpknd
  have hidnd := hinv.hidnd
  have hidlt := hinv.hidlt
  have hnid := hinv.hnid
  have htodoR : alookup st.bound (propKey r) = alookup bound0 (propKey r) :=
    hinv.htodo _ hr (List.not_mem_nil _)
  cases hfound : alookup st.bound (propKey r) with
  | none =>
      have hno : ∀ e ∈ st.children, propKey e.key ≠ propKey r := by
        intro e he hpk
        have heP : e ∈ P := by rw [← hchP]; exact he
        have he0 := hinv.hPorig e heP
        have hl := h0look e he0
        rw [hpk] at hl
        rw [htodoR, hl] at hfound
        cases hfound
      have hidfresh : st.nextElemId ∉ st.children.map Elem.id := by
        intro hm
        obtain ⟨e, he, hide⟩ := List.mem_map.mp hm
        exact absurd hide (Nat.ne_of_lt (hidlt e he))
      have hE : ∀ pk, alookup (aset st.bound (propKey r) ⟨st.nextElemId, r, true⟩) pk =
          if pk = propKey r then some ⟨st.nextElemId, r, true⟩
          else if (none : Option String) = some pk then none
          else alookup st.bound pk := by
        intro pk
        rw [alookup_aset]
        by_cases hpk : pk = propKey r
        · rw [if_pos hpk, if_pos hpk]
        · rw [if_neg hpk, if_neg hpk, if_neg (fun hc => Option.noConfusion hc)]
      rcases list_concat_cases P with rfl | ⟨Q, s, rfl⟩
      · -- empty parent: the fresh unit is appended
        have hlast : st.children.getLast? = none := by rw [hchP]; rfl
        have hchEq : domAppend ⟨st.nextElemId, r, true⟩ st.children =
            [⟨st.nextElemId, r, true⟩] := by
          show domDetach st.nextElemId st.children ++ _ = _
          rw [hchP]
          rfl
        refine ⟨⟨st.nextElemId, r, true⟩, [],
          ⟨[⟨st.nextElemId, r, true⟩],
           aset st.bound (propKey r) ⟨st.nextElemId, r, true⟩,
           st.selectObservers, st.nextElemId + 1,
           st.ops ++ [.append st.nextElemId],
           st.rendered ++ [propKey r]⟩, ?_, ?_⟩
        · simp [placeStep, hfound, hlast, hchEq]
        · exact PInv_update pks bound0 children0 nid0 [] [] [] st hinv
            r ⟨st.nextElemId, r, true⟩ [] _ none hr (List.not_mem_nil _) rfl rfl
            (List.nil_sublist _) (by simp) (by simp)
            (fun e he => absurd he (List.not_mem_nil e)) hE
            (fun pk hc => Option.noConfusion hc) (fun p hp => mem_aset _ _ _ p hp)
            (aset_fst_nodup _ _ _ hinv.hbnd)
            (fun e he => absurd he (List.not_mem_nil e))
            (fun pk hc => Option.noConfusion hc)
            (Or.inr ⟨hnid, Nat.lt_succ_self _⟩) (Nat.lt_succ_self _) (Nat.le_succ _)
      · -- non-empty parent whose last child has a different key: append
        have hlast : st.children.getLast? = some s := by
          rw [hchP]
          exact List.getLast?_concat _
        have hskey : s.key ≠ (⟨st.nextElemId, r, true⟩ : Elem).key := by
          show s.key ≠ r
          intro he
          exact hno s (by rw [hchP]; exact List.mem_append_right _ (List.mem_singleton.mpr rfl))
            (by rw [he])
        have hchEq : domAppend ⟨st.nextElemId, r, true⟩ st.children =
            (Q ++ [s]) ++ ⟨st.nextElemId, r, true⟩ :: [] := by
          show domDetach st.nextElemId st.children ++ _ = _
          rw [domDetach_not_mem _ _ hidfresh, hchP]
        have hcPpkF : ∀ e ∈ Q ++ [s], propKey e.key ≠ propKey r := by
          intro e he
          exact hno e (by rw [hchP]; exact he)
        refine ⟨⟨st.nextElemId, r, true⟩, Q ++ [s],
          ⟨(Q ++ [s]) ++ ⟨st.nextElemId, r, true⟩ :: [],
           aset st.bound (propKey r) ⟨st.nextElemId, r, true⟩,
           st.selectObservers, st.nextElemId + 1,
           st.ops ++ [.append st.nextElemId],
           st.rendered ++ [propKey r]⟩, ?_, ?_⟩
        · simp [placeStep, hfound, hlast, hskey, hchEq]
        · exact PInv_update pks bound0 children0 nid0 [] [] (Q ++ [s]) st hinv
            r ⟨st.nextElemId, r, true⟩ (Q ++ [s]) _ none hr (List.not_mem_nil _) rfl rfl
            (List.Sublist.refl _)
            (by show st.nextElemId ∉ _; rw [← hchP]; exact hidfresh) (by simp)
            hcPpkF hE
            (fun pk hc => Option.noConfusion hc) (fun p hp => mem_aset _ _ _ p hp)
            (aset_fst_nodup _ _ _ hinv.hbnd)
            (fun e he _ _ => he)
            (fun pk hc => Option.noConfusion hc)
            (Or.inr ⟨hnid, Nat.lt_succ_self _⟩) (Nat.lt_succ_self _) (Nat.le_succ _)
  | some e_r =>
      have hck : propKey e_r.key = propKey r :=
        hinv.hbk (propKey r, e_r) (alookup_mem _ _ _ hfound)
      have hb0r : alookup bound0 (propKey r) = some e_r := by
        rw [← htodoR]
        exact hfound
      have her0 : e_r ∈ children0 := h0ent _ (alookup_mem _ _ _ hb0r)
      have herlt : e_r.id < nid0 := h0id e_r her0
      have hdetach_id : e_r ∉ st.children → e_r.id ∉ st.children.map Elem.id := by
        intro hnm hm
        obtain ⟨e2, he2, hide⟩ := List.mem_map.mp hm
        rcases hinv.horig e2 he2 with h0 | hfr
        · have hee : e2 = e_r := nodup_map_inj Elem.id children0 h0idnd e2 h0 e_r her0 hide
          exact hnm (hee ▸ he2)
        · have hle : nid0 ≤ e_r.id := by rw [← hide]; exact hfr.1
          exact absurd herlt (Nat.not_lt.mpr hle)
      have hE : ∀ pk, alookup st.bound pk =
          if pk = propKey r then some e_r
          else if (none : Option String) = some pk then none
          else alookup st.bound pk := by
        intro pk
        by_cases h1 : pk = propKey r
        · rw [if_pos h1, h1]
          exact hfound
        · rw [if_neg h1, if_neg (fun hc => Option.noConfusion hc)]
      rcases list_concat_cases P with rfl | ⟨Q, s, rfl⟩
      · -- empty parent: the bound unit is (re)appended
        have hlast : st.children.getLast? = none := by rw [hchP]; rfl
        have herid : e_r.id ∉ st.children.map Elem.id :=
          hdetach_id (by rw [hchP]; exact List.not_mem_nil _)
        have hchEq : domAppend e_r st.children = [e_r] := by
          show domDetach e_r.id st.children ++ _ = _
          rw [domDetach_not_mem _ _ herid, hchP]
          rfl
        refine ⟨e_r, [], ⟨[e_r], st.bound, st.selectObservers, st.nextElemId,
          st.ops ++ [.append e_r.id], st.rendered⟩, ?_, ?_⟩
        · simp [placeStep, hfound, hlast, hchEq]
        · exact PInv_update pks bound0 children0 nid0 [] [] [] st hinv
            r e_r [] _ none hr (List.not_mem_nil _) hck rfl (List.nil_sublist _)
            (by simp) (by simp) (fun e he => absurd he (List.not_mem_nil e)) hE
            (fun pk hc => Option.noConfusion hc) (fun p hp => Or.inl hp) hinv.hbnd
            (fun e he => absurd he (List.not_mem_nil e))
            (fun pk hc => Option.noConfusion hc)
            (Or.inl her0) (lt_of_lt_of_le herlt hnid) (le_refl _)
      · have hlast : st.children.getLast? = some s := by
          rw [hchP]
          exact List.getLast?_concat _
        have hidndQ : ((Q ++ s :: []).map Elem.id).Nodup := by rw [← hchP]; exact hidnd
        have hsid := nodup_mid Elem.id Q [] s hidndQ
        have hpkndQ : ((Q ++ s :: []).map fun e => propKey e.key).Nodup := by
          rw [← hchP]; exact hpknd
        have hspk := nodup_mid (fun e => propKey e.key) Q [] s hpkndQ
        have hsP : s ∈ Q ++ [s] := List.mem_append_right _ (List.mem_singleton.mpr rfl)
        have hQsub : ∀ x ∈ Q, x ∈ st.children := by
          intro x hx
          rw [hchP]
          exact List.mem_append_left _ hx
        have hQidnd : (Q.map Elem.id).Nodup := by
          have hq := hidndQ
          rw [List.map_append, List.nodup_append] at hq
          exact hq.1
        by_cases hskey : s.key = e_r.key
        · -- the unit is already the last child: nothing to do
          have hs0 : s ∈ children0 := hinv.hPorig s hsP
          have hls := h0look s hs0
          have hpkse : propKey s.key = propKey r := by
            rw [hskey]
            exact hck
          have hse : s = e_r := by
            rw [hpkse, hb0r] at hls
            exact (Option.some.inj hls).symm
          have hchE : st.children = Q ++ e_r :: [] := by rw [hchP, hse]
          have hcPpk : ∀ e ∈ Q, propKey e.key ≠ propKey r := by
            intro e he hc
            rw [← hpkse] at hc
            have hm : propKey e.key ∈ Q.map fun x => propKey x.key :=
              List.mem_map_of_mem _ he
            rw [hc] at hm
            exact hspk.1 hm
          refine ⟨e_r, Q, st, ?_, ?_⟩
          · simp [placeStep, hfound, hlast, hskey]
          · exact PInv_update pks bound0 children0 nid0 [] [] (Q ++ [s]) st hinv
              r e_r Q st none hr (List.not_mem_nil _) hck hchE
              (List.sublist_append_left _ _)
              (hse ▸ hsid.1) (by simp) hcPpk hE
              (fun pk hc => Option.noConfusion hc) (fun p hp => Or.inl hp) hinv.hbnd
              (by
                intro e he hpk _
                rcases List.mem_append.mp he with h | h
                · exact h
                · exfalso
                  rw [List.mem_singleton] at h
                  exact hpk (by rw [h, hpkse]; exact hr))
              (fun pk hc => Option.noConfusion hc)
              (Or.inl her0) (lt_of_lt_of_le herlt hnid) (le_refl _)
        · -- the unit is elsewhere (or detached): it is appended, which
          -- first detaches it
          have hsne : s ≠ e_r := fun hc => hskey (by rw [hc])
          have hEmem : e_r ∈ Q ∨ e_r.id ∉ st.children.map Elem.id := by
            by_cases hmem : e_r ∈ st.children
            · left
              rw [hchP] at hmem
              rcases List.mem_append.mp hmem with h | h
              · exact h
              · rw [List.mem_singleton] at h
                exact absurd h.symm hsne
            · exact Or.inr (hdetach_id hmem)
          have hscid : s.id ≠ e_r.id := by
            rcases hEmem with h | h
            · intro hc
              exact hsid.1 (hc.symm ▸ List.mem_map_of_mem Elem.id h)
            · intro hc
              exact h (hc ▸ List.mem_map_of_mem Elem.id (by
                rw [hchP]; exact hsP))
          have hsnot : e_r.id ∉ ([s].map Elem.id) := by
            intro hm
            rw [List.map_cons, List.map_nil, List.mem_singleton] at hm
            exact hscid hm.symm
          have hchEq : domAppend e_r st.children =
              (domDetach e_r.id Q ++ [s]) ++ e_r :: [] := by
            show domDetach e_r.id st.children ++ _ = _
            rw [hchP, domDetach_append_left e_r.id Q [s] hsnot]
          have hidQne : ∀ e ∈ Q, propKey e.key ∉ pks → e.id ≠ e_r.id := by
            intro e he hpk hc
            rcases hEmem with h | h
            · have hee : e = e_r :=
                nodup_map_inj Elem.id st.children hidnd e (hQsub e he) e_r (hQsub e_r h) hc
              exact hpk (by rw [hee, hck]; exact hr)
            · exact h (hc ▸ List.mem_map_of_mem Elem.id (hQsub e he))
          have hcPpk2 : ∀ e ∈ domDetach e_r.id Q ++ [s], propKey e.key ≠ propKey r := by
            intro e he hc
            have heP : e ∈ Q ++ [s] := by
              rcases List.mem_append.mp he with h | h
              · exact List.mem_append_left _ (mem_of_mem_domDetach h)
              · exact List.mem_append_right _ h
            have he0 : e ∈ children0 := hinv.hPorig e heP
            have hle := h0look e he0
            rw [hc, hb0r] at hle
            have hee : e = e_r := (Option.some.inj hle).symm
            rcases List.mem_append.mp he with h | h
            · exact mem_domDetach_id_ne e_r.id Q hQidnd e h (by rw [hee])
            · rw [List.mem_singleton] at h
              exact hsne (h ▸ hee)
          refine ⟨e_r, domDetach e_r.id Q ++ [s],
            ⟨(domDetach e_r.id Q ++ [s]) ++ e_r :: [], st.bound, st.selectObservers,
             st.nextElemId, st.ops ++ [.append e_r.id], st.rendered⟩, ?_, ?_⟩
          · simp [placeStep, hfound, hlast, hskey, hchEq]
          · exact PInv_update pks bound0 children0 nid0 [] [] (Q ++ [s]) st hinv
              r e_r (domDetach e_r.id Q ++ [s]) _ none hr (List.not_mem_nil _) hck rfl
              (List.Sublist.append (List.eraseP_sublist _) (List.Sublist.refl _))
              (by
                intro hm
                rw [List.map_append] at hm
                rcases List.mem_append.mp hm with h | h
                · obtain ⟨x, hx, hxe⟩ := List.mem_map.mp h
                  exact mem_domDetach_id_ne e_r.id Q hQidnd x hx hxe
                · exact hsnot h)
              (by simp) hcPpk2 hE
              (fun pk hc => Option.noConfusion hc) (fun p hp => Or.inl hp) hinv.hbnd
              (by
                intro e he hpk _
                rcases List.mem_append.mp he with h | h
                · exact List.mem_append_left _ (mem_domDetach_of_ne h (hidQne e h hpk))
                · exact List.mem_append_right _ h)
              (fun pk hc => Option.noConfusion hc)
              (Or.inl her0) (lt_of_lt_of_le herlt hnid) (le_refl _)

/-- The stray-cleanup loop removes exactly the children whose keys left
the collection, erases their bound entries, and leaves everything else
(placed children, live bound entries, the id supply) untouched. -/
theorem straysLoop_inv (pks : List String) (keys : List (String × Nat))
    (hdom : ∀ pk, (alookup keys pk).isSome ↔ pk ∈ pks) :
    ∀ (entries : List (String × Elem)) (Pc EBf : List Elem) (st : PassSt),
      st.children = Pc ++ EBf →
      (∀ e ∈ Pc, propKey e.key ∉ pks) →
      (∀ e ∈ Pc, (propKey e.key, e) ∈ entries) →
      (∀ p ∈ entries, p.1 ∉ pks → p.2 ∈ Pc ∧ propKey p.2.key = p.1) →
      (∀ pk2, pk2 ∉ pks → ∀ e, alookup st.bound pk2 = some e → (pk2, e) ∈ entries) →
      (∀ e ∈ Pc, alookup st.bound (propKey e.key) = some e) →
      (st.children.map Elem.id).Nodup →
      (st.children.map fun e => propKey e.key).Nodup →
      (entries.map Prod.fst).Nodup →
      (st.bound.map Prod.fst).Nodup →
      (∀ p ∈ st.bound, propKey p.2.key = p.1) →
      ∃ st', straysLoop keys entries st = st' ∧
        st'.children = EBf ∧
        (∀ pk2, alookup st'.bound pk2 =
          if pk2 ∈ pks then alookup st.bound pk2 else none) ∧
        (∀ p ∈ st'.bound, p ∈ st.bound) ∧
        (st'.bound.map Prod.fst).Nodup ∧
        st'.nextElemId = st.nextElemId := by
  intro entries
  induction entries with
  | nil =>
      intro Pc EBf st h1 h2 h3 h4 h5 h6 h7 h8 h9 h10 h11
      have hPc : Pc = [] := by
        rw [List.eq_nil_iff_forall_not_mem]
        intro e he
        exact absurd (h3 e he) (List.not_mem_nil _)
      refine ⟨st, rfl, ?_, ?_, fun p hp => hp, h10, rfl⟩
      · rw [h1, hPc, List.nil_append]
      · intro pk2
        by_cases hm : pk2 ∈ pks
        · rw [if_pos hm]
        · rw [if_neg hm]
          cases hlk : alookup st.bound pk2 with
          | none => rfl
          | some e => exact absurd (h5 pk2 hm e hlk) (List.not_mem_nil _)
  | cons p rest ih =>
      intro Pc EBf st h1 h2 h3 h4 h5 h6 h7 h8 h9 h10 h11
      obtain ⟨pk, e⟩ := p
      have hchnd : ((Pc ++ EBf).map Elem.id).Nodup := h1 ▸ h7
      have hchpknd : ((Pc ++ EBf).map fun x => propKey x.key).Nodup := h1 ▸ h8
      have hPcid : (Pc.map Elem.id).Nodup := by
        have hq := hchnd
        rw [List.map_append, List.nodup_append] at hq
        exact hq.1
      by_cases hpkm : pk ∈ pks
      · -- the entry's key is still live: nothing happens
        obtain ⟨w, hw⟩ := Option.isSome_iff_exists.mp ((hdom pk).mpr hpkm)
        obtain ⟨st', hseq, hc1, hc2, hc3, hc4, hc5⟩ := ih Pc EBf st h1 h2
          (by
            intro e2 he2
            rcases List.mem_cons.mp (h3 e2 he2) with hh | hh
            · exfalso
              simp only [Prod.mk.injEq] at hh
              exact h2 e2 he2 (by rw [hh.1]; exact hpkm)
            · exact hh)
          (fun q hq => h4 q (List.mem_cons_of_mem _ hq))
          (by
            intro pk2 hnm e2 hlk
            rcases List.mem_cons.mp (h5 pk2 hnm e2 hlk) with hh | hh
            · exfalso
              simp only [Prod.mk.injEq] at hh
              exact hnm (by rw [hh.1]; exact hpkm)
            · exact hh)
          h6 h7 h8 (List.nodup_cons.mp h9).2 h10 h11
        refine ⟨st', ?_, hc1, hc2, hc3, hc4, hc5⟩
        rw [straysLoop, if_pos (by rw [hw]; rfl)]
        exact hseq
      · -- stale entry: its unit is removed and its bookkeeping erased
        have hkeysN : alookup keys pk = none :=
          Option.not_isSome_iff_eq_none.mp (fun hsm => hpkm ((hdom pk).mp hsm))
        have h4head := h4 (pk, e) (List.mem_cons_self _ _) hpkm
        have heC : e ∈ Pc := h4head.1
        have hepk : propKey e.key = pk := h4head.2
        have heEB : e.id ∉ EBf.map Elem.id := nodup_append_disj Elem.id Pc EBf hchnd e heC
        have hdetC : domDetach e.id st.children = domDetach e.id Pc ++ EBf := by
          rw [h1]
          exact domDetach_append_left _ _ _ heEB
        have hpkrest : pk ∉ rest.map Prod.fst := (List.nodup_cons.mp h9).1
        have h2i : ∀ e2 ∈ domDetach e.id Pc, propKey e2.key ∉ pks :=
          fun e2 he2 => h2 e2 (mem_of_mem_domDetach he2)
        have h3i : ∀ e2 ∈ domDetach e.id Pc, (propKey e2.key, e2) ∈ rest := by
          intro e2 he2
          rcases List.mem_cons.mp (h3 e2 (mem_of_mem_domDetach he2)) with hh | hh
          · exfalso
            simp only [Prod.mk.injEq] at hh
            exact mem_domDetach_id_ne e.id Pc hPcid e2 he2 (by rw [hh.2])
          · exact hh
        have h4i : ∀ q ∈ rest, q.1 ∉ pks → q.2 ∈ domDetach e.id Pc ∧ propKey q.2.key = q.1 := by
          intro q hq hnm
          obtain ⟨hqC, hqpk⟩ := h4 q (List.mem_cons_of_mem _ hq) hnm
          refine ⟨mem_domDetach_of_ne hqC ?_, hqpk⟩
          intro hc
          have hq2 : q.2 = e :=
            nodup_map_inj Elem.id Pc hPcid q.2 hqC e heC hc
          apply hpkrest
          have hq1 : q.1 = pk := by rw [← hqpk, hq2, hepk]
          rw [← hq1]
          exact List.mem_map_of_mem Prod.fst hq
        have h5i : ∀ pk2, pk2 ∉ pks → ∀ e2,
            alookup (aerase st.bound pk) pk2 = some e2 → (pk2, e2) ∈ rest := by
          intro pk2 hnm e2 hlk
          rw [alookup_aerase] at hlk
          by_cases hc : pk2 = pk
          · rw [if_pos hc] at hlk
            cases hlk
          · rw [if_neg hc] at hlk
            rcases List.mem_cons.mp (h5 pk2 hnm e2 hlk) with hh | hh
            · exfalso
              simp only [Prod.mk.injEq] at hh
              exact hc hh.1
            · exact hh
        have h6i : ∀ e2 ∈ domDetach e.id Pc,
            alookup (aerase st.bound pk) (propKey e2.key) = some e2 := by
          intro e2 he2
          have he2C : e2 ∈ Pc := mem_of_mem_domDetach he2
          have hne : ¬ propKey e2.key = pk := by
            intro hc
            rw [← hepk] at hc
            have he2e : e2 = e :=
              nodup_map_inj (fun x => propKey x.key) (Pc ++ EBf) hchpknd
                e2 (List.mem_append_left _ he2C) e (List.mem_append_left _ heC) hc
            exact mem_domDetach_id_ne e.id Pc hPcid e2 he2 (by rw [he2e])
          rw [alookup_aerase, if_neg hne]
          exact h6 e2 he2C
        have hsubch : (domDetach e.id Pc ++ EBf).Sublist (Pc ++ EBf) :=
          List.Sublist.append (List.eraseP_sublist _) (List.Sublist.refl _)
        have h7i : ((domDetach e.id Pc ++ EBf).map Elem.id).Nodup :=
          List.Nodup.sublist (List.Sublist.map Elem.id hsubch) hchnd
        have h8i : ((domDetach e.id Pc ++ EBf).map fun x => propKey x.key).Nodup :=
          List.Nodup.sublist (List.Sublist.map _ hsubch) hchpknd
        have hrec : ∀ so, ∃ st',
            straysLoop keys rest
              ⟨domDetach e.id Pc ++ EBf, aerase st.bound pk, so,
               st.nextElemId, st.ops ++ [.remove e.id], st.rendered⟩ = st' ∧
            st'.children = EBf ∧
            (∀ pk2, alookup st'.bound pk2 =
              if pk2 ∈ pks then alookup (aerase st.bound pk) pk2 else none) ∧
            (∀ q ∈ st'.bound, q ∈ aerase st.bound pk) ∧
            (st'.bound.map Prod.fst).Nodup ∧
            st'.nextElemId = st.nextElemId :=
          fun so => ih (domDetach e.id Pc) EBf _ rfl h2i h3i h4i h5i h6i h7i h8i
            (List.nodup_cons.mp h9).2 (aerase_fst_nodup _ _ h10)
            (fun q hq => h11 q (mem_of_mem_aerase hq))
        have hcomp : ∀ st' : PassSt, (∀ pk2, alookup st'.bound pk2 =
              if pk2 ∈ pks then alookup (aerase st.bound pk) pk2 else none) →
            ∀ pk2, alookup st'.bound pk2 =
              if pk2 ∈ pks then alookup st.bound pk2 else none := by
          intro st' hl pk2
          rw [hl pk2]
          by_cases hm : pk2 ∈ pks
          · rw [if_pos hm, if_pos hm, alookup_aerase,
              if_neg (fun hc => hpkm (by rw [← hc]; exact hm))]
          · rw [if_neg hm, if_neg hm]
        by_cases hsel : (alookup st.selectObservers pk).isSome = true
        · obtain ⟨st', hseq, hc1, hc2, hc3, hc4, hc5⟩ := hrec (aerase st.selectObservers pk)
          refine ⟨st', ?_, hc1, hcomp st' hc2,
            fun q hq => mem_of_mem_aerase (hc3 q hq), hc4, hc5⟩
          rw [straysLoop, if_neg (show ¬ (alookup keys pk).isSome = true by
            rw [hkeysN]; simp)]
          simpa [hdetC, hsel] using hseq
        · obtain ⟨st', hseq, hc1, hc2, hc3, hc4, hc5⟩ := hrec st.selectObservers
          refine ⟨st', ?_, hc1, hcomp st' hc2,
            fun q hq => mem_of_mem_aerase (hc3 q hq), hc4, hc5⟩
          rw [straysLoop, if_neg (show ¬ (alookup keys pk).isSome = true by
            rw [hkeysN]; simp)]
          simpa [hdetC, hsel] using hseq

/-- A well-formed pre-pass state satisfies the placement invariant with
nothing placed yet. -/
theorem PInv_init (pks : List String) (st0 : BindState) (hwf : WFB st0) :
    PInv pks st0.bound st0.children st0.nextElemId [] [] st0.children
      ⟨st0.children, st0.bound, st0.selectObservers, st0.nextElemId, [], []⟩ := by
  obtain ⟨hlook, hent, hbnd, hpknd, hidnd, hidlt⟩ := hwf
  exact ⟨(List.append_nil _).symm, rfl,
    fun pk h => absurd h (List.not_mem_nil _),
    fun e h => absurd h (List.not_mem_nil _),
    fun e _ h => absurd h (List.not_mem_nil _),
    hpknd, hidnd,
    fun pk _ _ => rfl,
    fun pk _ e he => ⟨(hent _ (alookup_mem _ _ _ he)).1, he⟩,
    fun e he _ => hlook e he,
    fun p hp => (hent p hp).2,
    hbnd,
    fun e he => he,
    fun e he => Or.inl he,
    hidlt, le_refl _⟩

/-- Lemma B: a completed `arrangeElements` pass over a well-formed
state leaves a state consistent with the collection it was given. -/
theorem arrange_establishes (mapKey : Option (JVal → JVal)) (items : List JVal)
    (st0 st1 : BindState) (ops1 : List DomOp) (rendered1 : List String)
    (hwf : WFB st0)
    (harr : arrangeElements mapKey items st0 = .ok st1 ops1 rendered1) :
    Consistent mapKey items st1 := by
  by_cases hitems : items = []
  · -- the empty collection clears everything
    subst hitems
    rw [arrangeElements,
      if_pos (show ([] : List JVal).isEmpty = true from rfl)] at harr
    injection harr with hst hops hrend
    subst hst
    exact ⟨⟨fun e he => absurd he (List.not_mem_nil e),
            fun p hp => absurd hp (List.not_mem_nil p),
            List.nodup_nil, List.nodup_nil, List.nodup_nil,
            fun e he => absurd he (List.not_mem_nil e)⟩, rfl, fun _ => ⟨rfl, rfl⟩⟩
  · -- non-empty: keys computed, placement pass, stray cleanup
    by_cases hnd : (pksOf mapKey items).Nodup
    case neg =>
      exfalso
      rw [arrangeElements, if_neg (by simpa using hitems),
        keysLoop_error mapKey items 0 [] [] (Or.inl hnd)] at harr
      cases harr
    case pos =>
      obtain ⟨keys, hkeq, hdom0⟩ := keysLoop_ok mapKey items 0 [] [] hnd (fun pk _ => rfl)
      rw [List.nil_append] at hkeq
      have hdom : ∀ pk, (alookup keys pk).isSome ↔ pk ∈ pksOf mapKey items := by
        intro pk
        rw [hdom0 pk]
        simp [alookup]
      rcases list_concat_cases (rawKeysOf mapKey items) with hnil | ⟨initK, lastK, hsplitK⟩
      · exact absurd (List.map_eq_nil_iff.mp hnil) hitems
      · have hrevK : (rawKeysOf mapKey items).reverse = lastK :: initK.reverse := by
          rw [hsplitK]
          simp
        have hlastmem : propKey lastK ∈ pksOf mapKey items := by
          rw [pksOf, hsplitK]
          simp
        obtain ⟨hlook0, hent0, hbnd0, hpknd0, hidnd0, hidlt0⟩ := hwf
        have hinv0 := PInv_init (pksOf mapKey items) st0
          ⟨hlook0, hent0, hbnd0, hpknd0, hidnd0, hidlt0⟩
        obtain ⟨c1, P1, st1p, hps1, hinv1⟩ :=
          placeStep0_inv (pksOf mapKey items) keys st0.bound st0.children st0.nextElemId
            hlook0 (fun p hp => (hent0 p hp).1) hidnd0 hidlt0
            lastK st0.children
            ⟨st0.children, st0.bound, st0.selectObservers, st0.nextElemId, [], []⟩
            hlastmem hinv0
        have hBp : ((initK.reverse.map fun k => propKey k).reverse) ++ [propKey lastK] =
            pksOf mapKey items := by
          rw [List.map_reverse, List.reverse_reverse, pksOf, hsplitK, List.map_append]
          rfl
        obtain ⟨EBf, Pf, stf, hloop, hinvf⟩ :=
          placeLoop_inv (pksOf mapKey items) keys st0.bound st0.children st0.nextElemId
            hdom hlook0 (fun p hp => (hent0 p hp).1) hidnd0 hidlt0 hnd
            initK.reverse [propKey lastK] c1 [] P1 st1p hBp hinv1
        have hplace : placeLoop keys (rawKeysOf mapKey items).reverse none
            ⟨st0.children, st0.bound, st0.selectObservers, st0.nextElemId, [], []⟩ = stf := by
          rw [hrevK]
          simp only [placeLoop, hps1]
          exact hloop
        obtain ⟨hchf, hEBf, hBsubf, hlookEBf, hPf, hpkndf, hidndf, htodof, hstalef,
          hstalePf, hbkf, hbndf, hPorigf, horigf, hidltf, hnidf⟩ := hinvf
        obtain ⟨sts, hseq, hc1, hc2, hc3, hc4, hc5⟩ :=
          straysLoop_inv (pksOf mapKey items) keys hdom stf.bound Pf EBf stf
            hchf hPf
            (fun e he => alookup_mem _ _ _ (hstalePf e he (hPf e he)))
            (fun p hp hnm => ⟨(hstalef p.1 hnm p.2 (alookup_of_mem_nodup _ p hp hbndf)).1,
              hbkf p hp⟩)
            (fun pk2 _ e he => alookup_mem _ _ _ he)
            (fun e he => hstalePf e he (hPf e he))
            hidndf hpkndf hbndf hbndf hbkf
        have harr2 : arrangeElements mapKey items st0 =
            .ok ⟨sts.children, sts.bound, sts.selectObservers, sts.nextElemId⟩
              sts.ops sts.rendered := by
          rw [arrangeElements, if_neg (by simpa using hitems), hkeq]
          simp only [hplace, hseq]
        have hout := harr.symm.trans harr2
        injection hout with hst hops hrend
        subst hst
        have hEBpknd : (EBf.map fun e => propKey e.key).Nodup := by
          have hq := hpkndf
          rw [hchf, List.map_append, List.nodup_append] at hq
          exact hq.2.1
        have hEBidnd : (EBf.map Elem.id).Nodup := by
          have hq := hidndf
          rw [hchf, List.map_append, List.nodup_append] at hq
          exact hq.2.1
        refine ⟨⟨?_, ?_, ?_, ?_, ?_, ?_⟩, ?_, fun h => absurd h hitems⟩
        · show ∀ e ∈ sts.children, alookup sts.bound (propKey e.key) = some e
          intro e he
          rw [hc1] at he
          have hpk : propKey e.key ∈ pksOf mapKey items := by
            rw [← hEBf]
            exact List.mem_map_of_mem _ he
          rw [hc2, if_pos hpk]
          exact hlookEBf e he
        · show ∀ p ∈ sts.bound, p.2 ∈ sts.children ∧ propKey p.2.key = p.1
          intro p hp
          have hpb : p ∈ stf.bound := hc3 p hp
          have hlk : alookup sts.bound p.1 = some p.2 := alookup_of_mem_nodup _ p hp hc4
          have hpks : p.1 ∈ pksOf mapKey items := by
            by_contra hnm
            rw [hc2, if_neg hnm] at hlk
            cases hlk
          have hmm : p.1 ∈ EBf.map fun e => propKey e.key := by
            rw [hEBf]
            exact hpks
          obtain ⟨e2, he2, he2pk⟩ := List.mem_map.mp hmm
          have hlk2 : alookup sts.bound p.1 = some e2 := by
            rw [hc2, if_pos hpks, ← he2pk]
            exact hlookEBf e2 he2
          rw [hlk] at hlk2
          have hpe : p.2 = e2 := Option.some.inj hlk2
          refine ⟨?_, hbkf p hpb⟩
          rw [hc1, hpe]
          exact he2
        · exact hc4
        · show ((sts.children).map fun e => propKey e.key).Nodup
          rw [hc1]
          exact hEBpknd
        · show ((sts.children).map Elem.id).Nodup
          rw [hc1]
          exact hEBidnd
        · show ∀ e ∈ sts.children, e.id < sts.nextElemId
          intro e he
          rw [hc1] at he
          rw [hc5]
          exact hidltf e (by rw [hchf]; exact List.mem_append_right _ he)
        · show (sts.children.map fun e => propKey e.key) = pksOf mapKey items
          rw [hc1]
          exact hEBf

/-!
## Theorems for claims C2, C10, C5, C6, C7 (state container core)
-/

/-- C2: for every container and every `set(newValue)` call, the new
value is stored, every observer registered at the start of the call is
invoked exactly once with `(newValue, oldValue)` in subscription order
(the model's dispatch is the synchronous loop of the source), even if
`newValue` equals the old value, and the call returns `newValue`. -/
theorem c2_set_stores_notifies_returns (ctx : SCtx) (v : JVal) :
    (stateCall ctx (.value v)).1.currentValue = v ∧
    (stateCall ctx (.value v)).2.1 = v ∧
    (stateCall ctx (.value v)).2.2.length = ctx.observers.length ∧
    ∀ i : Nat, (stateCall ctx (.value v)).2.2[i]? =
      (ctx.observers[i]?).map fun o => (o.2, v, ctx.currentValue) := by
  refine ⟨rfl, rfl, by simp [stateCall], fun i => ?_⟩
  simp [stateCall]

/-- C10: calling the state function with zero arguments, or with the
state function itself as the sole argument, returns the stored current
value, leaves the container untouched, and performs no observer
invocation. -/
theorem c10_get_paths_pure (ctx : SCtx) :
    stateCall ctx .noArg = (ctx, ctx.currentValue, []) ∧
    stateCall ctx .selfArg = (ctx, ctx.currentValue, []) :=
  ⟨rfl, rfl⟩

/-- C5 counterexample: selecting the already-selected key `"x"` fires
that key's observer set twice in one `select()` call (once as the
previously-selected key, once as the newly-selected key), refuting
"each observer set is invoked at most once per select() call". -/
theorem c5_counterexample_reselect_fires_twice :
    (doSelect ⟨.str "x", [("x", [7]), ("y", [8])]⟩ (.str "x")).2 = [7, 7] ∧
    ¬ (List.count 7 (doSelect ⟨.str "x", [("x", [7]), ("y", [8])]⟩ (.str "x")).2 ≤ 1) := by
  refine ⟨rfl, by decide⟩

/-- C5 (amended): a `select(key)` call stores the new key and invokes,
in order, the observers registered for the previously-selected key
followed by the observers registered for the newly-selected key; each
set fires at most once per call, except that re-selecting the
currently-selected key fires that single set twice. -/
theorem c5_amended_select_order (ctx : SelCtx) (key : JVal) :
    (doSelect ctx key).1 = { ctx with selected := key } ∧
    (doSelect ctx key).2 =
      obsFor ctx (propKey ctx.selected) ++ obsFor ctx (propKey key) := by
  refine ⟨rfl, ?_⟩
  simp only [doSelect, obsFor]
  cases alookup ctx.selectObservers (propKey ctx.selected) <;>
    cases alookup ctx.selectObservers (propKey key) <;> rfl

/-- C6 counterexample: after a subscription's unsubscribe token has run
once (removing the registration and nulling its captured list
reference), invoking the token again throws a `TypeError` instead of
being an idempotent no-op. -/
theorem c6_counterexample_double_unsubscribe_throws :
    (doSubscribe ⟨.num 0, [], 0⟩ 100).1.observers = [(0, 100)] ∧
    runUnsubscribe [(0, 100)] ⟨0, true⟩ = .ok ([], ⟨0, false⟩) ∧
    runUnsubscribe [] ⟨0, false⟩ = .error .typeError := by
  decide

/-- C6 (amended): `subscribe(callback)` returns an unsubscribe token;
invoking the token removes exactly that one registration (all others
stay intact); invoking it again throws a `TypeError` (the captured list
reference was set to null) rather than being a no-op; and a later
`set()` never invokes the unsubscribed callback. -/
theorem c6_amended_unsubscribe (ctx : SCtx) (cb : Nat)
    (hids : ∀ p ∈ ctx.observers, p.1 < ctx.nextId)
    (hcb : ∀ p ∈ ctx.observers, p.2 ≠ cb) :
    runUnsubscribe (doSubscribe ctx cb).1.observers (doSubscribe ctx cb).2 =
      .ok (ctx.observers, ⟨ctx.nextId, false⟩) ∧
    runUnsubscribe ctx.observers ⟨ctx.nextId, false⟩ = .error .typeError ∧
    ∀ v : JVal, ∀ ev ∈ (stateCall ⟨ctx.currentValue, ctx.observers, ctx.nextId + 1⟩
      (.value v)).2.2, ev.1 ≠ cb := by
  refine ⟨?_, rfl, ?_⟩
  · have hfind : ∀ l : List (Nat × Nat), (∀ p ∈ l, p.1 < ctx.nextId) →
        jsFindIndex (fun o => o.1 == ctx.nextId) (l ++ [(ctx.nextId, cb)]) =
          (l.length : Int) := by
      intro l
      induction l with
      | nil => intro _; simp [jsFindIndex]
      | cons p rest ih =>
          intro h
          have hp : p.1 ≠ ctx.nextId := Nat.ne_of_lt (h p (by simp))
          have hrest := ih fun q hq => h q (by simp [hq])
          simp only [List.cons_append, jsFindIndex, List.append_eq]
          rw [if_neg (by simp [hp]), hrest, if_neg (by omega)]
          simp
    have hsplice : jsSplice1 (ctx.observers ++ [(ctx.nextId, cb)])
        ((ctx.observers.length : Int)) = ctx.observers := by
      rw [jsSplice1, if_neg (by omega)]
      have h1 : ((ctx.observers.length : Int)).toNat = ctx.observers.length := by omega
      rw [h1, List.take_left, ← List.drop_drop 1 ctx.observers.length,
        List.drop_left]
      simp
    have hf := hfind ctx.observers hids
    simp [runUnsubscribe, doSubscribe, hf, hsplice]
  · intro v ev hev
    simp only [stateCall, List.mem_map] at hev
    obtain ⟨o, ho, rfl⟩ := hev
    exact hcb o ho

/-- C6 amended witness: the amended theorem at a concrete container
with one prior registration. -/
theorem c6_amended_unsubscribe_witness :
    runUnsubscribe (doSubscribe ⟨.num 0, [(0, 100)], 1⟩ 200).1.observers
        (doSubscribe ⟨.num 0, [(0, 100)], 1⟩ 200).2 = .ok ([(0, 100)], ⟨1, false⟩) ∧
    runUnsubscribe [(0, 100)] ⟨1, false⟩ = .error .typeError ∧
    ∀ v : JVal, ∀ ev ∈ (stateCall ⟨.num 0, [(0, 100)], 2⟩ (.value v)).2.2, ev.1 ≠ 200 :=
  c6_amended_unsubscribe ⟨.num 0, [(0, 100)], 1⟩ 200
    (by decide) (by decide)

/-- Helper: `jsInStep` can only fail with a `TypeError`. -/
theorem jsInStep_error_eq (w : JVal) (a : String) (e : JsErr)
    (h : jsInStep w a = .error e) : e = .typeError := by
  cases w <;> simp only [jsInStep] at h
  case obj oid fields =>
    cases halu : alookup fields a <;> rw [halu] at h <;> cases h
  case arr elems =>
    split at h
    · cases h
    · split at h
      · split at h <;> cases h
      · cases h
  all_goals (cases h; rfl)

/-- Helper: the `ok` case of `Except` bind. -/
theorem except_bind_ok {ε α β : Type} (a : α) (f : α → Except ε β) :
    (Except.ok a >>= f) = f a := rfl

/-- Helper: the `error` case of `Except` bind. -/
theorem except_bind_error {ε α β : Type} (e : ε) (f : α → Except ε β) :
    ((Except.error e : Except ε α) >>= f) = .error e := rfl

/-- Helper: the path traversal can never produce the `InvalidPath`
error (only `jsInStep`'s `TypeError` can arise). -/
theorem foldl_jsInStep_ne_invalidPath :
    ∀ (segs : List String) (w : JVal),
      List.foldlM jsInStep w segs ≠ .error .invalidPath := by
  intro segs
  induction segs with
  | nil => intro w h; cases h
  | cons a rest ih =>
      intro w h
      rw [List.foldlM_cons] at h
      cases hstep : jsInStep w a with
      | ok w' =>
          rw [hstep, except_bind_ok] at h
          exact ih w' h
      | error e =>
          rw [hstep, except_bind_error] at h
          have he := jsInStep_error_eq w a e hstep
          rw [he] at h
          cases h

/-- C7 counterexample: `getPath('')` is not rejected as an invalid path
(the empty string passes the `typeof path !== 'string'` check and reads
the absent property `''`, yielding `undefined`), and a dotted path
whose *first* segment is absent throws a `TypeError` (`'b' in
undefined`) instead of returning `undefined`. -/
theorem c7_counterexample_getPath :
    getPath (.str "") (.obj 0 [("a", .num 1)]) = .ok .undef ∧
    getPath (.str "") (.obj 0 [("a", .num 1)]) ≠ .error .invalidPath ∧
    getPath (.str "a.b") (.obj 0 [("x", .num 1)]) = .error .typeError := by
  refine ⟨by decide, by decide, by decide⟩

/-- C7 (amended): `getPath(path)` fails with `InvalidPath` exactly when
`path` is not a string (the empty string is accepted and read as one
empty segment); fails with `NotAnObject` when `typeof currentValue` is
not `'object'`; returns `undefined` when only the final segment of the
dotted path is absent from the object it is read on; and raises a
`TypeError` when a non-final segment is absent (the `in` operator is
then applied to `undefined`). -/
theorem c7_amended_getPath :
    (∀ p v, typeofStr p ≠ "string" → getPath p v = .error .invalidPath) ∧
    (∀ s v, typeofStr v = "object" → getPath (.str s) v ≠ .error .invalidPath) ∧
    (∀ s v, typeofStr v ≠ "object" → getPath (.str s) v = .error .notAnObject) ∧
    (∀ s v segs seg oid fields, splitDot s = segs ++ [seg] →
      typeofStr v = "object" →
      List.foldlM jsInStep v segs = .ok (.obj oid fields) →
      alookup fields seg = none →
      getPath (.str s) v = .ok .undef) ∧
    (∀ s v segs seg seg' rest oid fields, splitDot s = segs ++ seg :: seg' :: rest →
      typeofStr v = "object" →
      List.foldlM jsInStep v segs = .ok (.obj oid fields) →
      alookup fields seg = none →
      getPath (.str s) v = .error .typeError) := by
  have hstep1 : ∀ (s : String) (v : JVal), getPath (.str s) v =
      if typeofStr v ≠ "object" then .error .notAnObject
      else (splitDot s).foldlM jsInStep v := fun s v => rfl
  have hred : ∀ (s : String) (v : JVal), typeofStr v = "object" →
      getPath (.str s) v = (splitDot s).foldlM jsInStep v := by
    intro s v hv
    rw [hstep1, if_neg (by simp [hv])]
  refine ⟨?_, ?_, ?_, ?_, ?_⟩
  · intro p v hp
    cases p <;> first | rfl | exact absurd rfl hp
  · intro s v hv
    rw [hred s v hv]
    exact foldl_jsInStep_ne_invalidPath _ v
  · intro s v hv
    rw [hstep1, if_pos hv]
  · intro s v segs seg oid fields hsplit hv hfold hseg
    rw [hred s v hv, hsplit, List.foldlM_append, hfold, except_bind_ok,
      List.foldlM_cons]
    simp only [jsInStep, hseg]
    rfl
  · intro s v segs seg seg' rest oid fields hsplit hv hfold hseg
    rw [hred s v hv, hsplit, List.foldlM_append, hfold, except_bind_ok,
      List.foldlM_cons]
    simp only [jsInStep, hseg]
    rw [except_bind_ok, List.foldlM_cons]
    rfl

/-!
## Theorems for claims C3, C8, C9 (reconciler scenarios)
-/

/-- The C3 scenario, first pass: a fresh `bindChildren` on items keyed
`a, b, c` (primitive items are their own keys). -/
def c3Pass1 : PipeOut :=
  bindChildrenInit true false ⟨.arr [.str "a", .str "b", .str "c"], none, ⟨[], [], [], 0⟩⟩

/-- The C3 scenario, second pass: `set()` with the same three items
reordered to `c, a, b`. -/
def c3Pass2 : PipeOut :=
  boundSet 1 c3Pass1.ctx (.arr [.str "c", .str "a", .str "b"])

/-- C3: reordering the bound items `[a, b, c]` to `[c, a, b]` produces
child order `c, a, b` in the parent, the second pass renders nothing
(`rendered = []`, so the render function is not invoked for any
persisting key), and the three child units are exactly the three units
rendered by the first pass (same node ids, permuted). -/
theorem c3_reorder_preserves_units :
    c3Pass1.ctx.bind.children.map Elem.key = [.str "a", .str "b", .str "c"] ∧
    c3Pass2.err = none ∧
    c3Pass2.ctx.bind.children.map Elem.key = [.str "c", .str "a", .str "b"] ∧
    c3Pass2.rendered = [] ∧
    c3Pass1.ctx.bind.children.map Elem.id = [2, 1, 0] ∧
    c3Pass2.ctx.bind.children.map Elem.id = [0, 2, 1] ∧
    List.Perm (c3Pass2.ctx.bind.children.map Elem.id)
      (c3Pass1.ctx.bind.children.map Elem.id) := by
  refine ⟨rfl, rfl, rfl, rfl, rfl, rfl, by decide⟩

/-- The C8 scenario: a container bound to the one-item collection
`["a"]`, in the consistent post-pass state. -/
def c8Start : BCtx :=
  ⟨.arr [.str "a"], none, ⟨[⟨0, .str "a", true⟩], [("a", ⟨0, .str "a", true⟩)], [], 1⟩⟩

/-- C8: setting a bound container to the non-collection value `"b"`
logs the coercion warning, and — because the `new Promise` executor
runs synchronously — the follow-up `set()` wrapping the value as
`["b"]` and the full reconciliation it triggers have *already happened
when the triggering call returns*: the stored value is already the
wrapped array and the structural operations (append the new unit,
remove the stale one) were already performed, not deferred to a next
cooperative tick. -/
theorem c8_wrap_runs_synchronously :
    (boundSet 2 c8Start (.str "b")).warns = [.nonArrayCoercion] ∧
    (boundSet 2 c8Start (.str "b")).ctx.currentValue = .arr [.str "b"] ∧
    (boundSet 2 c8Start (.str "b")).ops = [.append 1, .remove 0] ∧
    (boundSet 2 c8Start (.str "b")).rendered = ["b"] ∧
    (boundSet 2 c8Start (.str "b")).ctx.bind.children.map Elem.key = [.str "b"] ∧
    (boundSet 2 c8Start (.str "b")).err = none := by
  refine ⟨rfl, rfl, rfl, rfl, rfl, rfl⟩

/-- C1: for every container bound to a collection and sitting in the
consistent state a completed pass over the prior known-good value
leaves behind, a `set()` whose collection resolves two items to the
same property key fails with the duplicate-key error; the rollback
re-sets the prior value, whose reconciliation pass performs zero
structural operations, so after the call the container's value, the
bound map and the parent's children all equal their values before the
call — no partial structural change is applied. -/
theorem c1_duplicate_key_rolls_back (c : BCtx) (old new : List JVal) (fuel : Nat)
    (hval : c.currentValue = .arr old)
    (hc : Consistent c.mapKey old c.bind)
    (hdup : ¬ (pksOf c.mapKey new).Nodup) :
    ∃ ops,
      boundSet (fuel + 2) c (.arr new) =
        ⟨⟨.arr old, c.mapKey, c.bind⟩, ops, [], [], some (.js .duplicateKey)⟩ ∧
      structuralCount ops = 0 := by
  have hne : new ≠ [] := by
    intro h
    subst h
    exact hdup (by simp [pksOf, rawKeysOf])
  have harr : arrangeElements c.mapKey new c.bind = .dup := by
    rw [arrangeElements, if_neg (by simpa using hne),
      keysLoop_error c.mapKey new 0 [] [] (Or.inl hdup)]
  obtain ⟨ops, haold, hcount⟩ := arrange_consistent_noop c.mapKey old c.bind hc
  refine ⟨ops, ?_, hcount⟩
  have hstep2 : boundSet (fuel + 1) ⟨.arr new, c.mapKey, c.bind⟩ (.arr old) =
      ⟨⟨.arr old, c.mapKey, c.bind⟩, ops, [], [], none⟩ := by
    rw [boundSet]
    simp only [haold]
  rw [show fuel + 2 = (fuel + 1) + 1 from rfl, boundSet]
  simp only [hval, harr, hstep2]
  rfl

/-- C1 witness: the theorem at a concrete container bound to `["a"]`
(consistent one-child state) and a duplicate-key update `["x", "x"]`. -/
theorem c1_duplicate_key_rolls_back_witness :
    ∃ ops,
      boundSet 2 ⟨.arr [.str "a"], none,
          ⟨[⟨0, .str "a", true⟩], [("a", ⟨0, .str "a", true⟩)], [], 1⟩⟩
        (.arr [.str "x", .str "x"]) =
        ⟨⟨.arr [.str "a"], none,
          ⟨[⟨0, .str "a", true⟩], [("a", ⟨0, .str "a", true⟩)], [], 1⟩⟩,
          ops, [], [], some (.js .duplicateKey)⟩ ∧
      structuralCount ops = 0 :=
  c1_duplicate_key_rolls_back
    ⟨.arr [.str "a"], none, ⟨[⟨0, .str "a", true⟩], [("a", ⟨0, .str "a", true⟩)], [], 1⟩⟩
    [.str "a"] [.str "x", .str "x"] 0 rfl
    ⟨⟨by decide, by decide, by decide, by decide, by decide⟩, by decide, by decide⟩
    (by decide)

/-- The C9 scenario: two distinct structured items, no key function. -/
def c9Start : BCtx :=
  ⟨.arr [.obj 1 [("id", .num 1)], .obj 2 [("id", .num 2)]], none, ⟨[], [], [], 0⟩⟩

/-- C9: binding a collection of two distinct structured items with no
key function logs the positional-fallback warning, but the installed
fallback `(o, i) => i` is invoked by `keyMapper` with the value only,
so every structured item's key is `undefined`; the second item then
collides with the first and the initial reconciliation aborts with the
duplicate-key error (no child is ever placed) — it does not fall back
to positional indices. -/
theorem c9_positional_fallback_collides :
    keyMapper (some fun _ => JVal.undef) (.obj 1 [("id", .num 1)]) = .undef ∧
    keyMapper (some fun _ => JVal.undef) (.obj 2 [("id", .num 2)]) = .undef ∧
    (bindChildrenInit true false c9Start).warns = [.indexKeyFallback] ∧
    (bindChildrenInit true false c9Start).err = some (.js .duplicateKey) ∧
    (bindChildrenInit true false c9Start).ctx.bind.children = [] := by
  refine ⟨rfl, rfl, rfl, rfl, rfl⟩

/-- C4: running the reconciliation pass a second time immediately after
a completed pass, with no intervening `set()` on the container, performs
zero structural operations (no append, insert, replace, or remove) on
the parent node: the second pass returns the same state with an
operation list of structural weight zero and renders nothing. -/
theorem c4_second_pass_noop (mapKey : Option (JVal → JVal)) (items : List JVal)
    (st0 st1 : BindState) (ops1 : List DomOp) (rendered1 : List String)
    (hwf : WFB st0)
    (h1 : arrangeElements mapKey items st0 = .ok st1 ops1 rendered1) :
    ∃ ops2, arrangeElements mapKey items st1 = .ok st1 ops2 [] ∧
      structuralCount ops2 = 0 :=
  arrange_consistent_noop mapKey items st1
    (arrange_establishes mapKey items st0 st1 ops1 rendered1 hwf h1)

/-- C4 witness: mounting `["a"]` into the empty well-formed state, then
running the pass a second time on its output. -/
theorem c4_second_pass_noop_witness :
    WFB ⟨[], [], [], 0⟩ ∧
    arrangeElements none [.str "a"] (⟨[], [], [], 0⟩ : BindState) =
      .ok ⟨[⟨0, .str "a", true⟩], [("a", ⟨0, .str "a", true⟩)], [], 1⟩
        [.append 0] ["a"] ∧
    ∃ ops2, arrangeElements none [.str "a"]
        (⟨[⟨0, .str "a", true⟩], [("a", ⟨0, .str "a", true⟩)], [], 1⟩ : BindState) =
      .ok ⟨[⟨0, .str "a", true⟩], [("a", ⟨0, .str "a", true⟩)], [], 1⟩ ops2 [] ∧
      structuralCount ops2 = 0 :=
  ⟨⟨fun e he => absurd he (List.not_mem_nil e),
    fun p hp => absurd hp (List.not_mem_nil p),
    List.nodup_nil, List.nodup_nil, List.nodup_nil,
    fun e he => absurd he (List.not_mem_nil e)⟩,
   by decide,
   c4_second_pass_noop none [.str "a"] ⟨[], [], [], 0⟩
     ⟨[⟨0, .str "a", true⟩], [("a", ⟨0, .str "a", true⟩)], [], 1⟩ [.append 0] ["a"]
     ⟨fun e he => absurd he (List.not_mem_nil e),
      fun p hp => absurd hp (List.not_mem_nil p),
      List.nodup_nil, List.nodup_nil, List.nodup_nil,
      fun e he => absurd he (List.not_mem_nil e)⟩
     (by decide)⟩

/-- C7 amended witness: the amended theorem at concrete inputs — a
numeric path, a numeric value, an absent final segment, and an absent
intermediate segment. -/
theorem c7_amended_getPath_witness :
    getPath (.num 3) (.obj 0 []) = .error .invalidPath ∧
    getPath (.str "a") (.num 1) = .error .notAnObject ∧
    getPath (.str "b") (.obj 0 [("a", .num 1)]) = .ok .undef ∧
    getPath (.str "b.c") (.obj 0 [("a", .num 1)]) = .error .typeError := by
  have h := c7_amended_getPath
  refine ⟨h.1 (.num 3) (.obj 0 []) (by decide), h.2.2.1 "a" (.num 1) (by decide),
    h.2.2.2.1 "b" (.obj 0 [("a", .num 1)]) [] "b" 0 [("a", .num 1)]
      (by decide) (by decide) (by decide) (by decide),
    h.2.2.2.2 "b.c" (.obj 0 [("a", .num 1)]) [] "b" "c" [] 0 [("a", .num 1)]
      (by decide) (by decide) (by decide) (by decide)⟩

end Fntags
